import Mathlib

/-!
Verification development for the qec-util repository: a shallow embedding of
the layout data model (`qec_util/layouts/layout.py`), the rotated-surface-code
generator (`qec_util/layouts/library.py`) and the schedule-to-circuit
translator (`qec_util/circuits/util.py`), together with theorems that settle
the specification claims about them.

Python dictionaries are modelled as insertion-ordered association lists
(Python 3.7+ semantics); Python exceptions are modelled with `Except`;
gate times (Python floats used only for `+` and order comparisons here)
are modelled as rationals.
-/

set_option maxHeartbeats 1000000

namespace QecUtil

/-- A Python value as stored in layout attribute dictionaries: `None`,
strings, integers, lists, and string-keyed dicts (insertion-ordered
association lists). -/
inductive PyVal where
  | none
  | str (s : String)
  | int (n : Int)
  | list (xs : List PyVal)
  | dict (entries : List (String × PyVal))

mutual

/-- Structural decidable equality for `PyVal` (the automatic deriving does not
handle the nested `List` occurrences). -/
def PyVal.decEq : (a b : PyVal) → Decidable (a = b)
  | .none, .none => .isTrue rfl
  | .none, .str _ => .isFalse (by simp)
  | .none, .int _ => .isFalse (by simp)
  | .none, .list _ => .isFalse (by simp)
  | .none, .dict _ => .isFalse (by simp)
  | .str _, .none => .isFalse (by simp)
  | .str a, .str b =>
    if h : a = b then .isTrue (by rw [h]) else .isFalse (by simp [h])
  | .str _, .int _ => .isFalse (by simp)
  | .str _, .list _ => .isFalse (by simp)
  | .str _, .dict _ => .isFalse (by simp)
  | .int _, .none => .isFalse (by simp)
  | .int _, .str _ => .isFalse (by simp)
  | .int a, .int b =>
    if h : a = b then .isTrue (by rw [h]) else .isFalse (by simp [h])
  | .int _, .list _ => .isFalse (by simp)
  | .int _, .dict _ => .isFalse (by simp)
  | .list _, .none => .isFalse (by simp)
  | .list _, .str _ => .isFalse (by simp)
  | .list _, .int _ => .isFalse (by simp)
  | .list xs, .list ys =>
    match PyVal.decEqList xs ys with
    | .isTrue h => .isTrue (by rw [h])
    | .isFalse h => .isFalse (by simp [h])
  | .list _, .dict _ => .isFalse (by simp)
  | .dict _, .none => .isFalse (by simp)
  | .dict _, .str _ => .isFalse (by simp)
  | .dict _, .int _ => .isFalse (by simp)
  | .dict _, .list _ => .isFalse (by simp)
  | .dict xs, .dict ys =>
    match PyVal.decEqDict xs ys with
    | .isTrue h => .isTrue (by rw [h])
    | .isFalse h => .isFalse (by simp [h])

def PyVal.decEqList : (xs ys : List PyVal) → Decidable (xs = ys)
  | [], [] => .isTrue rfl
  | [], _ :: _ => .isFalse (by simp)
  | _ :: _, [] => .isFalse (by simp)
  | x :: xs, y :: ys =>
    match PyVal.decEq x y, PyVal.decEqList xs ys with
    | .isTrue h1, .isTrue h2 => .isTrue (by rw [h1, h2])
    | .isFalse h1, _ => .isFalse (by simp [h1])
    | _, .isFalse h2 => .isFalse (by simp [h2])

def PyVal.decEqDict : (xs ys : List (String × PyVal)) → Decidable (xs = ys)
  | [], [] => .isTrue rfl
  | [], _ :: _ => .isFalse (by simp)
  | _ :: _, [] => .isFalse (by simp)
  | (k1, v1) :: xs, (k2, v2) :: ys =>
    match inferInstanceAs (Decidable (k1 = k2)), PyVal.decEq v1 v2,
        PyVal.decEqDict xs ys with
    | .isTrue h0, .isTrue h1, .isTrue h2 => .isTrue (by rw [h0, h1, h2])
    | .isFalse h0, _, _ => .isFalse (by simp [h0])
    | _, .isFalse h1, _ => .isFalse (by simp [h1])
    | _, _, .isFalse h2 => .isFalse (by simp [h2])

end

instance : DecidableEq PyVal := PyVal.decEq

/-- A Python dict with string keys: an insertion-ordered association list.
All code below maintains the Python invariant that keys are unique. -/
abbrev Dict := List (String × PyVal)

/-- Python `d[k]` / `d.get(k)`: the value bound to the first occurrence of
key `k`, if any. -/
def Dict.lookup? (d : Dict) (k : String) : Option PyVal :=
  match d with
  | [] => Option.none
  | (k', v) :: rest => if k' = k then some v else Dict.lookup? rest k

/-- Python `k in d`. -/
def Dict.hasKey (d : Dict) (k : String) : Bool :=
  match d with
  | [] => false
  | (k', _) :: rest => k' = k || Dict.hasKey rest k

/-- Removes the first binding of `k` (Python dicts hold at most one). -/
def Dict.erase (d : Dict) (k : String) : Dict :=
  match d with
  | [] => []
  | (k', v) :: rest => if k' = k then rest else (k', v) :: Dict.erase rest k

/-- Python `d.pop(k)` (no default): the popped value together with the
post-state of the dict; `Option.none` models the raised `KeyError`. -/
def Dict.pop? (d : Dict) (k : String) : Option (PyVal × Dict) :=
  match Dict.lookup? d k with
  | Option.none => Option.none
  | some v => some (v, Dict.erase d k)

/-- Python `d[k] = v`: replace in place if the key exists, else append. -/
def Dict.insert (d : Dict) (k : String) (v : PyVal) : Dict :=
  if Dict.hasKey d k then d.map (fun p => if p.1 = k then (k, v) else p)
  else d ++ [(k, v)]

/-- Python `d.update(d2)`. -/
def Dict.update (d : Dict) (d2 : Dict) : Dict :=
  d2.foldl (fun acc p => Dict.insert acc p.1 p.2) d

/-- The kinds of Python exception the embedded code can raise. -/
inductive PyErr where
  | valueError (msg : String)
  | keyError (key : PyVal)
  | attributeError (msg : String)
  | typeError (msg : String)
deriving DecidableEq

/-- Python `str(v)` as used in f-string error messages. Exact for the strings
and ints that reach error messages in this code base; list/dict renderings are
abbreviated (they never appear in any claim). -/
def pyStr : PyVal → String
  | .none => "None"
  | .str s => s
  | .int n => toString n
  | .list _ => "[...]"
  | .dict _ => "\x7b...\x7d"

/-- Python `type(v)` as rendered in the `Layout.__init__` error message. -/
def pyTypeName : PyVal → String
  | .none => "<class 'NoneType'>"
  | .str _ => "<class 'str'>"
  | .int _ => "<class 'int'>"
  | .list _ => "<class 'list'>"
  | .dict _ => "<class 'dict'>"

/-! ## The directed qubit graph (the networkx `DiGraph` facets used by the code) -/

/-- The fragment of a networkx `DiGraph` that `Layout` uses: nodes in
insertion order with attribute dicts, directed edges in insertion order with
their `direction` attribute, and graph-level attributes (`graph.graph`). -/
structure DiGraph where
  nodes : List (PyVal × Dict)
  edges : List (PyVal × PyVal × String)
  gattrs : Dict
deriving DecidableEq

def DiGraph.empty : DiGraph := ⟨[], [], []⟩

def DiGraph.labels (g : DiGraph) : List PyVal := g.nodes.map (·.1)

def DiGraph.hasNode (g : DiGraph) (q : PyVal) : Bool :=
  g.nodes.any (fun p => p.1 = q)

def DiGraph.nodeAttrs? (g : DiGraph) (q : PyVal) : Option Dict :=
  (g.nodes.find? (fun p => p.1 = q)).map (·.2)

/-- networkx `G.add_node(q, **attrs)`: update the attribute dict of an
existing node in place, else append a fresh node. -/
def DiGraph.addNode (g : DiGraph) (q : PyVal) (attrs : Dict) : DiGraph :=
  if g.hasNode q then
    { g with nodes :=
        g.nodes.map (fun p =>
          if p.1 = q then (p.1, Dict.update p.2 attrs) else p) }
  else { g with nodes := g.nodes ++ [(q, attrs)] }

/-- networkx creates missing endpoints of a new edge with empty attributes. -/
def DiGraph.ensureNode (g : DiGraph) (q : PyVal) : DiGraph :=
  if g.hasNode q then g else { g with nodes := g.nodes ++ [(q, [])] }

def DiGraph.hasEdge (g : DiGraph) (u v : PyVal) : Bool :=
  g.edges.any (fun e => e.1 = u ∧ e.2.1 = v)

/-- networkx `G.add_edge(u, v, direction=dir)`: create missing endpoints,
then update the `(u, v)` edge attributes in place if the edge exists, else
append the edge (a `DiGraph` holds at most one edge per ordered pair). -/
def DiGraph.addEdge (g : DiGraph) (u v : PyVal) (dir : String) : DiGraph :=
  let g := (g.ensureNode u).ensureNode v
  if g.hasEdge u v then
    { g with edges :=
        g.edges.map (fun e =>
          if e.1 = u ∧ e.2.1 = v then (u, v, dir) else e) }
  else { g with edges := g.edges ++ [(u, v, dir)] }

/-- networkx `G.adj[u].items()` / `G.out_edges(u, data=True)`: the
`(target, direction)` pairs of the out-edges of `u`, in insertion order. -/
def DiGraph.outEdges (g : DiGraph) (u : PyVal) : List (PyVal × String) :=
  g.edges.filterMap (fun e => if e.1 = u then some e.2 else Option.none)

/-! ## `load_layout` and the `Layout` class (`qec_util/layouts/layout.py`) -/

/-- One step of `load_layout`: process one per-qubit attribute record.
Mirrors the body of the `for qubit_attributes in attribute_list` loop:
`pop("qubit")` (a missing key raises `ValueError`), `pop("neighbors", None)`
(a missing or non-dict value makes the later `.items()` call raise an
`AttributeError`), `add_node` with the remaining attributes, then one
`add_edge` per non-`None` neighbor, tagged with its direction.  Returns the
updated graph together with the post-state of the (mutated) record. -/
def loadRecord (g : DiGraph) (record : PyVal) :
    Except PyErr (DiGraph × PyVal) :=
  match record with
  | .dict entries =>
    match Dict.pop? entries "qubit" with
    | Option.none =>
      .error (.valueError "Each qubit in the layout must be labeled.")
    | some (qubit, rest) =>
      match Dict.pop? rest "neighbors" with
      | Option.none =>
        .error (.attributeError
          "'NoneType' object has no attribute 'items'")
      | some (nbrsVal, rest2) =>
        match nbrsVal with
        | .dict nbrs =>
          let g := g.addNode qubit rest2
          .ok (nbrs.foldl
            (fun g p => if p.2 = PyVal.none then g
              else g.addEdge qubit p.2 p.1) g, .dict rest2)
        | _ => .error (.attributeError "object has no attribute 'items'")
  | _ => .error (.attributeError "object has no attribute 'pop'")

/-- `load_layout(attribute_list)`: fold `loadRecord` over the record list,
starting from an empty graph.  Also returns the post-states of the records,
which Python mutates in place. -/
def load_layout (attribute_list : List PyVal) :
    Except PyErr (DiGraph × List PyVal) :=
  attribute_list.foldlM
    (fun acc r => do
      let (g, rec2) ← loadRecord acc.1 r
      .ok (g, acc.2 ++ [rec2]))
    (DiGraph.empty, ([] : List PyVal))

/-- The `Layout` class: the wrapped graph plus the qubit-to-index mapping
`_qubit_inds` frozen at construction time. -/
structure Layout where
  graph : DiGraph
  qubit_inds : List (PyVal × Nat)
deriving DecidableEq

/-- `Layout.__init__(graph, **attrs)` on an actual `DiGraph`: store the
graph-level attributes and freeze the qubit-to-index mapping from the current
node iteration order. -/
def Layout.init (graph : DiGraph) (attrs : Dict) : Layout :=
  let g : DiGraph := { graph with gattrs := Dict.update graph.gattrs attrs }
  { graph := g, qubit_inds := g.labels.zip (List.range g.labels.length) }

/-- `Layout.__init__` called on a non-`DiGraph` first argument (any plain
Python value): the `isinstance` guard raises `ValueError`. -/
def layoutInitOfPy (v : PyVal) (_attrs : Dict) : Except PyErr Layout :=
  .error (.valueError
    ("graph expected as networkx.DiGraph, instead got " ++ pyTypeName v))

/-- `Layout.from_dict(attributes)`: pop the `layout` record list (mutating the
argument), build the graph with `load_layout`, and pass the remaining keys as
graph-level attributes.  Returns the layout together with the post-state of
the caller's mapping and of the caller's record dicts (all mutated in place by
the Python code). -/
def Layout.from_dict (attributes : Dict) :
    Except PyErr (Layout × Dict × List PyVal) :=
  match Dict.pop? attributes "layout" with
  | Option.none => .error (.keyError (.str "layout"))
  | some (layoutVal, rest) =>
    match layoutVal with
    | .list records => do
      let (g, recs) ← load_layout records
      .ok (Layout.init g rest, rest, recs)
    | _ => .error (.typeError "'layout' value is not iterable")

/-- The four canonical direction keys, in the order `to_dict` fills them. -/
def directions : List String :=
  ["north_east", "north_west", "south_east", "south_west"]

/-- The `neighbors` sub-dict that `to_dict` builds for one node: one entry per
out-edge keyed by its direction (later duplicates overwriting, as in a Python
dict), then `None` for each of the four canonical directions not present. -/
def neighborsDictOf (g : DiGraph) (q : PyVal) : Dict :=
  let real := (g.outEdges q).foldl
    (fun acc p => Dict.insert acc p.2 p.1) []
  directions.foldl
    (fun acc d => if Dict.hasKey acc d then acc else acc ++ [(d, PyVal.none)])
    real

/-- `Layout.to_dict()`: one record per node (a deep copy of its attributes,
then the `qubit` key, then the reconstructed `neighbors` sub-dict), returned
under the single top-level key `layout`.  Note that the graph-level
attributes are not serialized. -/
def Layout.to_dict (L : Layout) : Dict :=
  let records := L.graph.nodes.map (fun p =>
    PyVal.dict (Dict.insert (Dict.insert p.2 "qubit" p.1)
      "neighbors" (PyVal.dict (neighborsDictOf L.graph p.1))))
  [("layout", PyVal.list records)]

/-- `Layout.get_inds(qubits)`: map each label through `_qubit_inds`; an
unknown label raises `KeyError`. -/
def Layout.get_inds (L : Layout) (qubits : List PyVal) :
    Except PyErr (List Nat) :=
  qubits.mapM (fun q =>
    match List.lookup q L.qubit_inds with
    | some i => .ok i
    | Option.none => .error (.keyError q))

/-- `valid_attrs(attrs, **conditions)`: scan the conditions in order; a key
missing from `attrs` raises `KeyError`; a stored `None` value or a value
different from the condition's value returns `False` immediately. -/
def valid_attrs (attrs : Dict) (conditions : Dict) : Except PyErr Bool :=
  match conditions with
  | [] => .ok true
  | (key, val) :: rest =>
    match Dict.lookup? attrs key with
    | Option.none => .error (.keyError (.str key))
    | some attr_val =>
      if attr_val = PyVal.none ∨ attr_val ≠ val then .ok false
      else valid_attrs attrs rest

/-- The node filter of `get_qubits`: the list comprehension
`[node for node, attrs in node_view if valid_attrs(attrs, **conds)]`. -/
def filterNodes (nodes : List (PyVal × Dict)) (conds : Dict) :
    Except PyErr (List PyVal) :=
  match nodes with
  | [] => .ok []
  | (q, attrs) :: rest => do
    let b ← valid_attrs attrs conds
    let tl ← filterNodes rest conds
    .ok (if b then q :: tl else tl)

/-- `Layout.get_qubits(**conds)`: with no conditions, all node labels in
order; otherwise the labels whose attributes pass `valid_attrs`. -/
def Layout.get_qubits (L : Layout) (conds : Dict) :
    Except PyErr (List PyVal) :=
  if conds = [] then .ok L.graph.labels
  else filterNodes L.graph.nodes conds

/-- `Layout.get_neighbors(qubits, direction, as_pairs=True)`: the
`(source, target)` pairs of the out-edges of the given qubits, optionally
restricted to one direction. -/
def Layout.get_neighbor_pairs (L : Layout) (qubits : List PyVal)
    (direction : Option String) : List (PyVal × PyVal) :=
  qubits.flatMap (fun u =>
    ((L.graph.outEdges u).filter (fun p =>
      match direction with
      | Option.none => true
      | some d => decide (p.2 = d))).map (fun p => (u, p.1)))

/-- `Layout.get_neighbors(qubits, direction)` with `as_pairs=False`:
only the target labels. -/
def Layout.get_neighbors (L : Layout) (qubits : List PyVal)
    (direction : Option String) : List PyVal :=
  (L.get_neighbor_pairs qubits direction).map (·.2)

/-- `Layout.__copy__` / `copy(layout)`: `Layout(self.graph.copy())` — the
graph value is copied and the index mapping is rebuilt from it. -/
def Layout.copy (L : Layout) : Layout := Layout.init L.graph []

/-- networkx `relabel_nodes(g, ...)` with an explicit relabeling function
(identity outside the mapping): nodes and edge endpoints are renamed,
attributes and graph attributes are carried over. -/
def DiGraph.relabel (g : DiGraph) (m : PyVal → PyVal) : DiGraph :=
  { nodes := g.nodes.map (fun p => (m p.1, p.2)),
    edges := g.edges.map (fun e => (m e.1, m e.2.1, e.2.2)),
    gattrs := g.gattrs }

/-- networkx `g.nodes[q][k] = v`. -/
def DiGraph.setNodeAttr (g : DiGraph) (q : PyVal) (k : String) (v : PyVal) :
    DiGraph :=
  { g with nodes :=
      g.nodes.map (fun p =>
        if p.1 = q then (p.1, Dict.insert p.2 k v) else p) }

/-- `Layout.index_qubits()`: copy the layout, relabel the copy's graph with
integers `0..N-1` in node order, store each original label under the `name`
node attribute, and assign the relabeled graph back to the copy — without
rebuilding the copy's `_qubit_inds` mapping. -/
def Layout.index_qubits (L : Layout) : Layout :=
  let indexed := L.copy
  let nodes := L.graph.labels
  let mapping := nodes.zip (List.range nodes.length)
  let m : PyVal → PyVal := fun q =>
    match List.lookup q mapping with
    | some i => PyVal.int i
    | Option.none => q
  let relabeled := indexed.graph.relabel m
  let relabeled := mapping.foldl
    (fun g p => g.setNodeAttr (PyVal.int p.2) "name" p.1) relabeled
  { indexed with graph := relabeled }

/-- `Layout.attr(param)`: a graph-level attribute; `KeyError` if absent. -/
def Layout.attr (L : Layout) (param : String) : Except PyErr PyVal :=
  match Dict.lookup? L.graph.gattrs param with
  | some v => .ok v
  | Option.none => .error (.keyError (.str param))

/-- `Layout.param(param, qubit)`: a node-level attribute. -/
def Layout.param (L : Layout) (param : String) (qubit : PyVal) :
    Except PyErr PyVal :=
  match L.graph.nodeAttrs? qubit with
  | Option.none => .error (.keyError qubit)
  | some attrs =>
    match Dict.lookup? attrs param with
    | some v => .ok v
    | Option.none => .error (.keyError (.str param))

/-- `Layout.set_param(param, qubit, value)`. -/
def Layout.set_param (L : Layout) (param : String) (qubit : PyVal)
    (value : PyVal) : Layout :=
  { L with graph := L.graph.setNodeAttr qubit param value }

/-! ## `index_coords` and `Layout.expansion_matrix` -/

/-- The constraint CPython guarantees on the iteration order of
`set(coords)`: each distinct value of `coords` appears exactly once.  The
order itself is hash-table order, hence implementation-defined: for int sets
it coincides with increasing value order only for small non-negative values
without slot collisions (e.g. `set([8, 0])` iterates `[8, 0]`).  The code
below is therefore modeled relative to an arbitrary enumeration satisfying
this constraint, passed in explicitly. -/
def SetOrder (coords unique_vals : List Int) : Prop :=
  unique_vals.Nodup ∧ (∀ c ∈ unique_vals, c ∈ coords) ∧
    (∀ c ∈ coords, c ∈ unique_vals)

instance (coords unique_vals : List Int) :
    Decidable (SetOrder coords unique_vals) :=
  inferInstanceAs (Decidable (unique_vals.Nodup ∧
    (∀ c ∈ unique_vals, c ∈ coords) ∧ (∀ c ∈ coords, c ∈ unique_vals)))

/-- `index_coords(coords, reverse)`: build `set(coords)`, zip its iteration
sequence with `range(n)` (`reversed(range(n))` when `reverse` is set), and
map each coordinate through the resulting dict
(`dict(zip(unique_vals, unique_inds))`).  The interpreter's set iteration
sequence is passed explicitly as `unique_vals`. -/
def index_coords (unique_vals : List Int) (coords : List Int)
    (reverse : Bool) : List Nat × Nat :=
  let n := unique_vals.length
  let unique_inds := if reverse then (List.range n).reverse else List.range n
  let mapping := unique_vals.zip unique_inds
  (coords.map (fun c => (List.lookup c mapping).getD 0), n)

/-- The value of `Layout.expansion_matrix()`: the ancilla labels (in node
order), the tensor shape data, and for each ancilla its assigned row and
column index.  The boolean tensor of shape
`(num_anc, 1, num_rows, num_cols)` is recovered by `entry`. -/
structure ExpansionMatrix where
  anc_qubits : List PyVal
  num_rows : Nat
  num_cols : Nat
  row_inds : List Nat
  col_inds : List Nat
deriving DecidableEq

/-- The number of channels of the expanded tensor (`expand_dims(..., axis=1)`
inserts a singleton axis). -/
def ExpansionMatrix.num_channels (_E : ExpansionMatrix) : Nat := 1

/-- `tensor[a, ch, r, c]` of the expanded boolean tensor: `True` exactly on
the single assigned `(row, col)` cell of each ancilla, on channel `0`. -/
def ExpansionMatrix.entry (E : ExpansionMatrix) (a ch r c : Nat) : Bool :=
  decide (ch = 0 ∧ E.row_inds.get? a = some r ∧ E.col_inds.get? a = some c)

/-- Extract the `[row, col]` integer pair from a stored `coords` attribute. -/
def coordPair? : PyVal → Option (Int × Int)
  | .list [.int r, .int c] => some (r, c)
  | _ => Option.none

/-- The ancilla selection of `expansion_matrix`: the list comprehension
`[node for node, data in node_view if data["role"] == "anc"]` (a node with
no `role` key raises `KeyError`). -/
def selectAnc : List (PyVal × Dict) → Except PyErr (List (PyVal × Dict))
  | [] => .ok []
  | p :: rest =>
    match Dict.lookup? p.2 "role" with
    | Option.none => .error (.keyError (.str "role"))
    | some v => do
      let tl ← selectAnc rest
      .ok (if v = PyVal.str "anc" then p :: tl else tl)

/-- The coordinate collection of `expansion_matrix`:
`[node_view[anc]["coords"] for anc in anc_qubits]` (a node with no `coords`
key raises `KeyError`; a non-`[int, int]` value would make the later
unzip/indexing fail). -/
def collectCoords : List (PyVal × Dict) → Except PyErr (List (Int × Int))
  | [] => .ok []
  | p :: rest =>
    match Dict.lookup? p.2 "coords" with
    | Option.none => .error (.keyError (.str "coords"))
    | some v =>
      match coordPair? v with
      | Option.none => .error (.typeError "coords is not an [int, int] pair")
      | some rc => do
        let tl ← collectCoords rest
        .ok (rc :: tl)

/-- `Layout.expansion_matrix()`: select the ancilla nodes, read their
coordinates, unzip into rows and columns (an empty ancilla list makes the
`rows, cols = zip(*coords)` unpacking raise `ValueError`), index rows in
reverse and columns in natural position within the interpreter's
`set(rows)` / `set(cols)` iteration sequences (`rowOrder` / `colOrder`,
implementation-defined and hence explicit parameters), and place each
ancilla's indicator at its `(row, col)` cell. -/
def Layout.expansion_matrix (L : Layout) (rowOrder colOrder : List Int) :
    Except PyErr ExpansionMatrix := do
  let ancNodes ← selectAnc L.graph.nodes
  let coords ← collectCoords ancNodes
  if coords = [] then
    .error (.valueError "not enough values to unpack (expected 2, got 0)")
  else
    let rows := coords.map (·.1)
    let cols := coords.map (·.2)
    let ri := index_coords rowOrder rows true
    let ci := index_coords colOrder cols false
    .ok { anc_qubits := ancNodes.map (·.1),
          num_rows := ri.2, num_cols := ci.2,
          row_inds := ri.1, col_inds := ci.1 }

/-! ## The rotated-surface-code generator (`qec_util/layouts/library.py`) -/

/-- `get_data_index(row, col, distance, start_ind)`: row-major index of the
data qubit at grid position `(row, col)` (Python `//` is floor division). -/
def get_data_index (row col distance start_ind : Int) : Int :=
  let row_ind := Int.fdiv row 2
  let col_ind := Int.fdiv col 2
  start_ind + row_ind * distance + col_ind

/-- `shift_direction(row_shift, col_shift)`: positive row shift is north,
positive column shift is east. -/
def shift_direction (row_shift col_shift : Int) : String :=
  (if row_shift > 0 then "north" else "south") ++ "_" ++
    (if col_shift > 0 then "east" else "west")

/-- `invert_shift(row_shift, col_shift)`. -/
def invert_shift (row_shift col_shift : Int) : Int × Int :=
  (-row_shift, -col_shift)

/-- `is_valid(row, col, max_size)`: both coordinates within `[0, max_size)`. -/
def is_valid (row col max_size : Int) : Bool :=
  decide (0 ≤ row ∧ row < max_size) && decide (0 ≤ col ∧ col < max_size)

/-- Python `range(start, stop, step)` for a positive step, as a list. -/
def intRange (start stop step : Int) : List Int :=
  (List.range (((stop - start).toNat + (step.toNat - 1)) / step.toNat)).map
    (fun i => start + step * (i : Int))

/-- The neighbor bookkeeping dictionary `neighbor_data`
(`defaultdict(dict)`): qubit label to direction-to-label dict, keys in first
insertion order. -/
abbrev NeighborData := List (PyVal × Dict)

/-- `neighbor_data[qubit][direction] = value` with `defaultdict` semantics:
a missing qubit key gets a fresh dict. -/
def ndSet (nd : NeighborData) (q : PyVal) (dir : String) (v : PyVal) :
    NeighborData :=
  if nd.any (fun p => p.1 = q) then
    nd.map (fun p => if p.1 = q then (p.1, Dict.insert p.2 dir v) else p)
  else nd ++ [(q, [(dir, v)])]

/-- `neighbor_data[qubit]` with `defaultdict` semantics (a fresh empty dict
for a missing qubit, as used when attaching neighbors to the records). -/
def ndGet (nd : NeighborData) (q : PyVal) : Dict :=
  ((nd.find? (fun p => p.1 = q)).map (·.2)).getD []

/-- `add_missing_neighbours(neighbor_data)`: fill each present qubit's dict
with `None` for each of the four canonical directions not yet present. -/
def add_missing_neighbours (nd : NeighborData) : NeighborData :=
  nd.map (fun p => (p.1,
    directions.foldl
      (fun acc d => if Dict.hasKey acc d then acc else acc ++ [(d, PyVal.none)])
      p.2))

/-- `nbr_shifts = tuple(product((1, -1), repeat=2))`. -/
def nbr_shifts : List (Int × Int) := [(1, 1), (1, -1), (-1, 1), (-1, -1)]

/-- The neighbor updates one ancilla at `(row, col)` contributes: for each
diagonal shift landing on a valid grid coordinate, record the data-qubit
neighbor under the shift's direction and the reverse relation on the data
qubit under the inverted shift's direction. -/
def addAncNeighbors (distance grid_size row col : Int) (anc : PyVal)
    (nd : NeighborData) : NeighborData :=
  nbr_shifts.foldl
    (fun nd s =>
      let data_row := row + s.1
      let data_col := col + s.2
      if is_valid data_row data_col grid_size then
        let data_index := get_data_index data_row data_col distance 1
        let data_qubit := PyVal.str ("D" ++ toString data_index)
        let dir := shift_direction s.1 s.2
        let inv := invert_shift s.1 s.2
        let inv_dir := shift_direction inv.1 inv.2
        let nd := ndSet nd anc dir data_qubit
        ndSet nd data_qubit inv_dir anc
      else nd)
    nd

/-- The data-qubit records of `rot_surf_code`: data qubits sit at odd
`(row, col)` grid positions; the `freq_group` cycles `low`/`high` per data
row starting at `low`. -/
def dataRecords (distance grid_size : Int) : List Dict :=
  ((intRange 1 grid_size 2).zip
      (List.range (intRange 1 grid_size 2).length)).flatMap (fun ri =>
    let row := ri.1
    let freq_group := if ri.2 % 2 = 0 then "low" else "high"
    (intRange 1 grid_size 2).map (fun col =>
      let index := get_data_index row col distance 1
      [("qubit", PyVal.str ("D" ++ toString index)),
       ("role", PyVal.str "data"),
       ("coords", PyVal.list [.int row, .int col]),
       ("freq_group", PyVal.str freq_group),
       ("stab_type", PyVal.none)]))

/-- The `(row, col)` positions scanned by the x-type ancilla loop. -/
def xAncCoords (grid_size : Int) : List (Int × Int) :=
  (intRange 0 grid_size 2).flatMap (fun row =>
    (intRange (2 + row % 4) (grid_size - 1) 4).map (fun col => (row, col)))

/-- The `(row, col)` positions scanned by the z-type ancilla loop. -/
def zAncCoords (grid_size : Int) : List (Int × Int) :=
  (intRange 2 (grid_size - 1) 2).flatMap (fun row =>
    (intRange (row % 4) grid_size 4).map (fun col => (row, col)))

/-- The record of one ancilla qubit. -/
def ancRecord (anc : PyVal) (stab_type : String) (row col : Int) : Dict :=
  [("qubit", anc),
   ("role", PyVal.str "anc"),
   ("coords", PyVal.list [.int row, .int col]),
   ("freq_group", PyVal.str "mid"),
   ("stab_type", PyVal.str stab_type)]

/-- One ancilla family's pass of `rot_surf_code`: scan the ancilla positions
in order, numbering them from 1 with the given label prefix, appending one
record each and threading the neighbor bookkeeping. -/
def ancPass (distance grid_size : Int) (prefixLabel stab_type : String)
    (coords : List (Int × Int)) (acc : List Dict × NeighborData) :
    List Dict × NeighborData :=
  (coords.zip (List.range coords.length)).foldl
    (fun acc ci =>
      let anc := PyVal.str (prefixLabel ++ toString (ci.2 + 1))
      let rcds := acc.1 ++ [ancRecord anc stab_type ci.1.1 ci.1.2]
      let nd := addAncNeighbors distance grid_size ci.1.1 ci.1.2 anc acc.2
      (rcds, nd))
    acc

/-- The full `layout_setup` dictionary that `rot_surf_code` builds before its
final `Layout(layout_setup)` call: graph-level attributes plus the per-qubit
records, each with its `neighbors` dict attached. -/
def rot_surf_code_setup (distance : Int) : Dict :=
  let grid_size := 2 * distance + 1
  let dataRcds := dataRecords distance grid_size
  let acc1 := ancPass distance grid_size "X" "x_type" (xAncCoords grid_size)
    (dataRcds, [])
  let acc2 := ancPass distance grid_size "Z" "z_type" (zAncCoords grid_size)
    acc1
  let nd := add_missing_neighbours acc2.2
  let records := acc2.1.map (fun rcd =>
    let q := (Dict.lookup? rcd "qubit").getD PyVal.none
    PyVal.dict (Dict.insert rcd "neighbors" (PyVal.dict (ndGet nd q))))
  [("name", PyVal.str ("Rotated d-" ++ toString distance ++
      " surface code layout.")),
   ("description", PyVal.none),
   ("distance", PyVal.int distance),
   ("freq_order", PyVal.list [.str "low", .str "mid", .str "high"]),
   ("interaction_order", PyVal.dict
     [("x_type", PyVal.list [.str "north_east", .str "north_west",
        .str "south_east", .str "south_west"]),
      ("z_type", PyVal.list [.str "north_east", .str "south_east",
        .str "north_west", .str "south_west"])]),
   ("layout", PyVal.list records)]

/-- `_check_distance(distance)`: `ValueError` unless the argument is an
integer that is neither negative nor even. -/
def _check_distance (v : PyVal) : Except PyErr Unit :=
  match v with
  | .int distance =>
    if distance < 0 ∨ distance % 2 = 0 then
      .error (.valueError "distance must be an odd positive integer")
    else .ok ()
  | _ => .error (.valueError "distance provided must be an integer")

/-- A convenience projection used after `_check_distance` has succeeded (the
argument is then known to be an integer). -/
def pyAsInt : PyVal → Int
  | .int n => n
  | _ => 0

/-- `rot_surf_code(distance)`: validate the distance, build `layout_setup`,
and call `Layout(layout_setup)`.  Since `layout_setup` is a plain dict and
`Layout.__init__` accepts only a networkx `DiGraph`, this final call always
raises `ValueError`. -/
def rot_surf_code (v : PyVal) : Except PyErr Layout := do
  _check_distance v
  let distance := pyAsInt v
  layoutInitOfPy (PyVal.dict (rot_surf_code_setup distance)) []

/-! ## The schedule-to-circuit translator (`qec_util/circuits/util.py`)

The gate-model collaborator is external (quantumsim): a method named after
the gate label returns a gate object whose `shift(time_start=t)` places it at
`t` and whose `time_end` is then `t` plus the gate's duration.  It is
modelled by its observable interface: a per-label duration (`Option` models
the `AttributeError` that `getattr` raises for an unknown label).  Gate times
are rationals (Python floats under `+` and order comparison only). -/

/-- A timed gate of the produced circuit, after `shift(time_start=...)`. -/
structure SimGate where
  label : String
  qubits : List PyVal
  time_start : Rat
  time_end : Rat
  parameters : Dict
deriving DecidableEq

/-- The gate-model collaborator: the duration of each known gate label. -/
structure Model where
  durations : String → Option Rat

/-- One gate record of a schedule layer (`label`, `num_qubits`, `qubits`,
`parameters`).  For `num_qubits = 2` each entry of `qubits` is a
`(ctrl, target)` pair, written as a two-element Python list. -/
structure GateDict where
  label : String
  num_qubits : Int
  qubits : List PyVal
  parameters : Dict
deriving DecidableEq

/-- One schedule layer. -/
structure Layer where
  time_start : Rat
  gates : List GateDict
deriving DecidableEq

/-- The schedule consumed by the translator. -/
structure Schedule where
  layers : List Layer
  circ_time : Rat
deriving DecidableEq

/-- The running state of the translator scan: the gates appended so far, the
per-qubit last-committed end times (`qubit_times`, a dict initialized to `0.0`
for every layout qubit), and the set of qubits touched so far
(insertion-ordered here; it is sorted before use). -/
structure TransState where
  gates : List SimGate
  qubit_times : List (PyVal × Rat)
  circ_qubits : List PyVal
deriving DecidableEq

/-- `qubit_times[q]` (the call sites guarantee `q` is a key). -/
def timesGet (ts : List (PyVal × Rat)) (q : PyVal) : Rat :=
  (List.lookup q ts).getD 0

/-- `qubit_times[q] = t`. -/
def timesSet (ts : List (PyVal × Rat)) (q : PyVal) (t : Rat) :
    List (PyVal × Rat) :=
  if ts.any (fun p => p.1 = q) then
    ts.map (fun p => if p.1 = q then (p.1, t) else p)
  else ts ++ [(q, t)]

/-- `circ_qubits.add(q)` (a Python set; modelled in insertion order). -/
def addToSet (s : List PyVal) (q : PyVal) : List PyVal :=
  if q ∈ s then s else s ++ [q]

/-- The body of the 1-qubit-gate loop of `circuit_from_schedule`, for one
qubit: reject a qubit absent from the layout; reject a gate that starts
before the qubit's last committed end time; otherwise build the gate, shift
it to the layer's start time, append it, and commit the qubit's new end
time. -/
def process1Qubit (layoutQubits : List PyVal) (label : String) (dur : Rat)
    (params : Dict) (time_start : Rat) (st : TransState) (q : PyVal) :
    Except PyErr TransState :=
  if q ∉ layoutQubits then
    .error (.valueError ("Qubit " ++ pyStr q ++ " not in layout."))
  else if timesGet st.qubit_times q > time_start then
    .error (.valueError ("Gate " ++ label ++
      " executed before previous operation has finished."))
  else
    let gate : SimGate :=
      { label := label
        qubits := [q]
        time_start := time_start
        time_end := time_start + dur
        parameters := params }
    .ok { gates := st.gates ++ [gate]
          qubit_times := timesSet st.qubit_times q gate.time_end
          circ_qubits := addToSet st.circ_qubits q }

/-- The body of the 2-qubit-gate loop of `circuit_from_schedule`, for one
`(ctrl, target)` pair: reject if either qubit is absent from the layout;
reject with the `not coupled` error if the target is not among the control's
neighbors in the layout graph; reject if either qubit's last committed end
time exceeds the layer's start time; otherwise append the shifted gate and
commit both qubits' new end times. -/
def process2Pair (L : Layout) (layoutQubits : List PyVal) (label : String)
    (dur : Rat) (params : Dict) (time_start : Rat) (st : TransState)
    (ctrl_q target_q : PyVal) : Except PyErr TransState :=
  if ctrl_q ∉ layoutQubits ∨ target_q ∉ layoutQubits then
    .error (.valueError ("Qubit(s) " ++ pyStr ctrl_q ++ ", " ++
      pyStr target_q ++ "  not in layout."))
  else if target_q ∉ L.get_neighbors [ctrl_q] Option.none then
    .error (.valueError ("Qubit " ++ pyStr target_q ++ " not coupled to " ++
      pyStr ctrl_q ++ " in layout."))
  else if timesGet st.qubit_times ctrl_q > time_start ∨
      timesGet st.qubit_times target_q > time_start then
    .error (.valueError ("Gate " ++ label ++
      " executed before previous operation has finished."))
  else
    let gate : SimGate :=
      { label := label
        qubits := [ctrl_q, target_q]
        time_start := time_start
        time_end := time_start + dur
        parameters := params }
    .ok { gates := st.gates ++ [gate]
          qubit_times := timesSet (timesSet st.qubit_times ctrl_q
            gate.time_end) target_q gate.time_end
          circ_qubits := addToSet (addToSet st.circ_qubits ctrl_q) target_q }

/-- Process one gate record of a layer: resolve the model method by label
(`getattr` raises `AttributeError` for an unknown label), then dispatch on
`num_qubits`; any other qubit count raises `ValueError`. -/
def processGate (L : Layout) (layoutQubits : List PyVal) (model : Model)
    (time_start : Rat) (st : TransState) (gd : GateDict) :
    Except PyErr TransState := do
  let dur ←
    match model.durations gd.label with
    | some d => Except.ok d
    | Option.none => Except.error (.attributeError
        ("model object has no attribute " ++ gd.label))
  if gd.num_qubits = 1 then
    gd.qubits.foldlM
      (process1Qubit layoutQubits gd.label dur gd.parameters time_start) st
  else if gd.num_qubits = 2 then
    gd.qubits.foldlM
      (fun st qv =>
        match qv with
        | .list [ctrl_q, target_q] =>
          process2Pair L layoutQubits gd.label dur gd.parameters time_start
            st ctrl_q target_q
        | _ => .error (.typeError
            "cannot unpack qubit pair from schedule entry"))
      st
  else
    .error (.valueError ("Unexpected number of qubits (" ++
      toString gd.num_qubits ++ ") for gate " ++ gd.label))

/-- Process one schedule layer. -/
def processLayer (L : Layout) (layoutQubits : List PyVal) (model : Model)
    (st : TransState) (layer : Layer) : Except PyErr TransState :=
  layer.gates.foldlM (processGate L layoutQubits model layer.time_start) st

/-- A total order used for Python's `sorted` over qubit labels (Python sorts
the labels, which are strings whenever the layout is built from a mapping;
non-string labels are ordered here by constructor for totality). -/
def pyKey : PyVal → Nat
  | .none => 0
  | .int _ => 1
  | .str _ => 2
  | .list _ => 3
  | .dict _ => 4

def pyLe (a b : PyVal) : Bool :=
  match a, b with
  | .str x, .str y => x ≤ y
  | .int x, .int y => x ≤ y
  | _, _ => pyKey a ≤ pyKey b

/-- Python `sorted(circ_qubits)`. -/
def sortQubits (s : List PyVal) : List PyVal :=
  List.insertionSort (fun a b => pyLe a b = true) s

/-- `circuit_from_schedule(schedule, layout, model)` (with the default
`finalize=False, add_idling=False`, whose other branches only delegate to the
external quantumsim collaborator): initialize every layout qubit's committed
time to `0.0`, scan the layers in the given order, and build the circuit over
the sorted set of qubits actually touched. -/
def circuit_from_schedule (schedule : Schedule) (L : Layout) (model : Model) :
    Except PyErr (List PyVal × List SimGate) := do
  let qubits := L.graph.labels
  let st0 : TransState :=
    { gates := [], qubit_times := qubits.map (fun q => (q, (0 : Rat))),
      circ_qubits := [] }
  let st ← schedule.layers.foldlM (processLayer L qubits model) st0
  .ok (sortQubits st.circ_qubits, st.gates)

/-! ## Claim C1 -/

/-- C1: the claim states that for every odd positive `d`, `rot_surf_code(d)`
returns a `Layout` with `d*d` data qubits, `(d*d-1)/2` ancillas of each
stabilizer type, and a symmetric neighbor relation.  The code cannot do so:
after building `layout_setup` (a plain dict), it calls
`Layout(layout_setup)`, and `Layout.__init__` raises `ValueError` for any
first argument that is not a networkx `DiGraph`.  So for every valid
distance the call raises instead of returning a layout. -/
theorem rot_surf_code_always_raises (d : Int) (hpos : 0 < d)
    (hodd : d % 2 = 1) :
    rot_surf_code (.int d) =
      .error (.valueError
        "graph expected as networkx.DiGraph, instead got <class 'dict'>") := by
  have h1 : ¬ (d < 0 ∨ 2 ∣ d) := by
    rw [Int.dvd_iff_emod_eq_zero]; omega
  simp [rot_surf_code, _check_distance, h1, layoutInitOfPy, pyTypeName,
    pyAsInt, Bind.bind, Except.bind]

/-- Witness for C1 at the concrete failing input `distance = 3`. -/
theorem rot_surf_code_always_raises_witness :
    rot_surf_code (.int 3) =
      .error (.valueError
        "graph expected as networkx.DiGraph, instead got <class 'dict'>") :=
  rot_surf_code_always_raises 3 (by decide) (by decide)

/-! ## Claim C2 -/

/-- C2: `rot_surf_code` rejects every argument that is not a positive odd
integer with a `ValueError` raised by `_check_distance` before any layout
is constructed: non-integers fail with the `must be an integer` message, and
integers that are even or negative fail with the
`odd positive integer` message. -/
theorem rot_surf_code_rejects_invalid_distance :
    (∀ v : PyVal, (∀ n : Int, v ≠ .int n) →
      rot_surf_code v =
        .error (.valueError "distance provided must be an integer")) ∧
    (∀ n : Int, n % 2 = 0 ∨ n < 0 →
      rot_surf_code (.int n) =
        .error (.valueError "distance must be an odd positive integer")) := by
  constructor
  · intro v hv
    cases v with
    | int n => exact absurd rfl (hv n)
    | none => rfl
    | str s => rfl
    | list xs => rfl
    | dict e => rfl
  · intro n hn
    have h1 : n < 0 ∨ 2 ∣ n := by
      rw [Int.dvd_iff_emod_eq_zero]; exact hn.symm
    simp [rot_surf_code, _check_distance, h1, Bind.bind, Except.bind]

/-- Witness for C2 at concrete invalid inputs: a string, an even integer,
and a negative integer. -/
theorem rot_surf_code_rejects_invalid_distance_witness :
    rot_surf_code (.str "3") =
        .error (.valueError "distance provided must be an integer") ∧
    rot_surf_code (.int 4) =
        .error (.valueError "distance must be an odd positive integer") ∧
    rot_surf_code (.int (-5)) =
        .error (.valueError "distance must be an odd positive integer") :=
  ⟨rot_surf_code_rejects_invalid_distance.1 (.str "3") (fun n => by simp),
   rot_surf_code_rejects_invalid_distance.2 4 (by decide),
   rot_surf_code_rejects_invalid_distance.2 (-5) (by decide)⟩

/-! ## Claims C6 and C9: `get_qubits` filtering -/

/-- `valid_attrs` characterization when every condition key is present:
it returns `ok b` where `b` holds exactly when every condition value matches
the stored value and no matched stored value is `None`. -/
theorem valid_attrs_ok_of_keys_present (attrs : Dict) (conds : Dict) :
    (∀ kv ∈ conds, (Dict.lookup? attrs kv.1).isSome) →
    ∃ b, valid_attrs attrs conds = .ok b ∧
      (b = true ↔ ∀ kv ∈ conds,
        Dict.lookup? attrs kv.1 = some kv.2 ∧ kv.2 ≠ PyVal.none) := by
  induction conds with
  | nil => intro _; exact ⟨true, rfl, by simp⟩
  | cons kv rest ih =>
    intro h
    obtain ⟨k, v⟩ := kv
    have hk := h (k, v) (List.mem_cons_self _ _)
    rw [Option.isSome_iff_exists] at hk
    obtain ⟨a, ha⟩ := hk
    have ha' : Dict.lookup? attrs k = some a := ha
    by_cases hcond : a = PyVal.none ∨ a ≠ v
    · refine ⟨false, ?_, iff_of_false (by simp) ?_⟩
      · simp only [valid_attrs, ha', if_pos hcond]
      · intro hall
        obtain ⟨hl, hv⟩ := hall (k, v) (List.mem_cons_self _ _)
        have hl' : Dict.lookup? attrs k = some v := hl
        have hv' : v ≠ PyVal.none := hv
        rw [ha'] at hl'
        have hav : a = v := Option.some.inj hl'
        rcases hcond with h1 | h1
        · exact hv' (by rw [← hav, h1])
        · exact h1 hav
    · push_neg at hcond
      obtain ⟨hne, heq⟩ := hcond
      obtain ⟨b, hb, hiff⟩ := ih (fun kv hkv => h kv (List.mem_cons_of_mem _ hkv))
      have hnc : ¬ (a = PyVal.none ∨ a ≠ v) := by
        push_neg
        exact ⟨hne, heq⟩
      refine ⟨b, ?_, ?_⟩
      · simp only [valid_attrs, ha', if_neg hnc]
        exact hb
      · rw [hiff]
        constructor
        · intro hrest kv hkv
          rcases List.mem_cons.mp hkv with hkv1 | hkv2
          · subst hkv1
            refine ⟨?_, ?_⟩
            · show Dict.lookup? attrs k = some v
              rw [ha', heq]
            · show v ≠ PyVal.none
              rw [← heq]
              exact hne
          · exact hrest kv hkv2
        · intro hall kv hkv
          exact hall kv (List.mem_cons_of_mem _ hkv)

/-- `filterNodes` characterization when every condition key is present in
every node's attributes: it succeeds, and returns exactly the labels of the
nodes whose stored values equal every condition value (a stored `None` never
matching). -/
theorem filterNodes_ok_of_keys_present (conds : Dict) (nodes : List (PyVal × Dict)) :
    (∀ p ∈ nodes, ∀ kv ∈ conds, (Dict.lookup? p.2 kv.1).isSome) →
    ∃ res, filterNodes nodes conds = .ok res ∧
      ∀ q, q ∈ res ↔ ∃ attrs, (q, attrs) ∈ nodes ∧
        ∀ kv ∈ conds, Dict.lookup? attrs kv.1 = some kv.2 ∧
          kv.2 ≠ PyVal.none := by
  induction nodes with
  | nil => intro _; exact ⟨[], rfl, by simp⟩
  | cons p0 rest ih =>
    intro h
    obtain ⟨q0, a0⟩ := p0
    obtain ⟨b, hb, hbiff⟩ := valid_attrs_ok_of_keys_present a0 conds
      (h (q0, a0) (List.mem_cons_self _ _))
    obtain ⟨res, hres, hresiff⟩ := ih
      (fun p hp => h p (List.mem_cons_of_mem _ hp))
    refine ⟨if b then q0 :: res else res, ?_, ?_⟩
    · simp only [filterNodes, Bind.bind, Except.bind, hb, hres]
    · intro q
      constructor
      · intro hq
        by_cases hbv : b = true
        · rw [hbv, if_pos rfl] at hq
          rcases List.mem_cons.mp hq with hq1 | hq2
          · subst hq1
            exact ⟨a0, List.mem_cons_self _ _, hbiff.mp hbv⟩
          · obtain ⟨attrs, hmem, hmatch⟩ := (hresiff q).mp hq2
            exact ⟨attrs, List.mem_cons_of_mem _ hmem, hmatch⟩
        · rw [if_neg hbv] at hq
          obtain ⟨attrs, hmem, hmatch⟩ := (hresiff q).mp hq
          exact ⟨attrs, List.mem_cons_of_mem _ hmem, hmatch⟩
      · intro hex
        obtain ⟨attrs, hmem, hmatch⟩ := hex
        rcases List.mem_cons.mp hmem with hmem1 | hmem2
        · have hq : q = q0 := congrArg Prod.fst hmem1
          have hattrs : attrs = a0 := congrArg Prod.snd hmem1
          have hbtrue : b = true := by
            apply hbiff.mpr
            rw [← hattrs]
            exact hmatch
          rw [hbtrue, if_pos rfl, hq]
          exact List.mem_cons_self _ _
        · have hqres := (hresiff q).mpr ⟨attrs, hmem2, hmatch⟩
          by_cases hbv : b = true
          · rw [hbv, if_pos rfl]
            exact List.mem_cons_of_mem _ hqres
          · rw [if_neg hbv]
            exact hqres

/-- C6: `get_qubits` succeeds whenever every condition key is stored on every
qubit, and returns exactly the qubit labels whose stored attribute values
equal every condition value; a qubit whose stored value for a condition key
is `None` never matches — in particular, when the condition value itself is
`None`, no qubit matches. -/
theorem get_qubits_exact_match (L : Layout) (conds : Dict)
    (h : ∀ p ∈ L.graph.nodes, ∀ kv ∈ conds,
      (Dict.lookup? p.2 kv.1).isSome) :
    ∃ res, L.get_qubits conds = .ok res ∧
      (∀ q, q ∈ res ↔ ∃ attrs, (q, attrs) ∈ L.graph.nodes ∧
        ∀ kv ∈ conds, Dict.lookup? attrs kv.1 = some kv.2 ∧
          kv.2 ≠ PyVal.none) := by
  by_cases hc : conds = []
  · subst hc
    refine ⟨L.graph.labels, by simp [Layout.get_qubits], ?_⟩
    intro q
    simp only [List.not_mem_nil, false_implies, implies_true, and_true]
    constructor
    · intro hq
      obtain ⟨p, hp, hpq⟩ := List.mem_map.mp hq
      obtain ⟨x, y⟩ := p
      refine ⟨y, ?_⟩
      have hx : x = q := hpq
      rw [← hx]
      exact hp
    · intro hex
      obtain ⟨attrs, hmem⟩ := hex
      exact List.mem_map.mpr ⟨(q, attrs), hmem, rfl⟩
  · obtain ⟨res, hres, hiff⟩ := filterNodes_ok_of_keys_present
      conds L.graph.nodes h
    refine ⟨res, ?_, hiff⟩
    simp only [Layout.get_qubits, if_neg hc]
    exact hres

/-- A concrete two-qubit layout used to witness C6: `q1` is a data qubit
with `freq_group` set, `q2` is a data qubit whose `freq_group` is `None`. -/
def exLayoutC6 : Layout :=
  Layout.init
    ⟨[(.str "q1", [("role", .str "data"), ("freq_group", .str "low")]),
      (.str "q2", [("role", .str "data"), ("freq_group", PyVal.none)])],
     [], []⟩ []

/-- Witness for C6: the filtering characterization instantiated on the
concrete two-qubit layout with conditions `role="data", freq_group="low"`. -/
theorem get_qubits_exact_match_witness :
    ∃ res, exLayoutC6.get_qubits
        [("role", .str "data"), ("freq_group", .str "low")] = .ok res ∧
      (∀ q, q ∈ res ↔ ∃ attrs, (q, attrs) ∈ exLayoutC6.graph.nodes ∧
        ∀ kv ∈ [("role", PyVal.str "data"), ("freq_group", PyVal.str "low")],
          Dict.lookup? attrs kv.1 = some kv.2 ∧ kv.2 ≠ PyVal.none) :=
  get_qubits_exact_match exLayoutC6
    [("role", .str "data"), ("freq_group", .str "low")] (by decide)

/-- A one-qubit layout whose only qubit has attribute `a = 0` and no `b`
attribute, used for C9. -/
def exLayoutC9 : Layout :=
  Layout.init ⟨[(.str "q", [("a", .int 0)])], [], []⟩ []

/-- C9 counterexample: the claim says a condition whose key is absent from
some qubit's attributes always raises `KeyError`.  But `valid_attrs` scans
conditions in order and returns `False` as soon as one fails, so with
conditions `a=1, b=2` on a qubit storing `a=0` (and no `b` at all) the
lookup of `b` is never reached: `get_qubits` returns `[]` without raising,
even though `b` is absent from the qubit's attributes. -/
theorem get_qubits_missing_key_counterexample :
    Dict.lookup? [("a", PyVal.int 0)] "b" = Option.none ∧
    exLayoutC9.get_qubits [("a", .int 1), ("b", .int 2)] = .ok [] := by
  exact ⟨rfl, rfl⟩

/-- C9 amended: with a single condition whose key is absent from some
qubit's attribute mapping, `get_qubits` does raise a `KeyError` on that key
(no earlier condition can short-circuit the lookup). -/
theorem get_qubits_single_missing_key_raises (L : Layout) (k : String)
    (v : PyVal)
    (h : ∃ p ∈ L.graph.nodes, Dict.lookup? p.2 k = Option.none) :
    L.get_qubits [(k, v)] = .error (.keyError (.str k)) := by
  have hmain : ∀ nodes : List (PyVal × Dict),
      (∃ p ∈ nodes, Dict.lookup? p.2 k = Option.none) →
      filterNodes nodes [(k, v)] = .error (.keyError (.str k)) := by
    intro nodes
    induction nodes with
    | nil =>
      intro hex
      obtain ⟨p, hp, _⟩ := hex
      cases hp
    | cons p0 rest ih =>
      intro hex
      obtain ⟨p, hp, hnone⟩ := hex
      obtain ⟨q0, a0⟩ := p0
      rcases List.mem_cons.mp hp with hp1 | hp2
      · have hnone0 : Dict.lookup? a0 k = Option.none := by
          have h2 : p.2 = a0 := congrArg Prod.snd hp1
          rw [← h2]
          exact hnone
        simp [filterNodes, valid_attrs, hnone0, Bind.bind, Except.bind]
      · have hrest := ih ⟨p, hp2, hnone⟩
        cases hla : Dict.lookup? a0 k with
        | none => simp [filterNodes, valid_attrs, hla, Bind.bind, Except.bind]
        | some a =>
          by_cases hcond : a = PyVal.none ∨ a ≠ v
          · simp [filterNodes, valid_attrs, hla, hcond, Bind.bind,
              Except.bind, hrest]
          · simp [filterNodes, valid_attrs, hla, hcond, Bind.bind,
              Except.bind, hrest]
  have hne : ¬ ([(k, v)] = ([] : Dict)) := by simp
  simp only [Layout.get_qubits, if_neg hne]
  exact hmain L.graph.nodes h

/-- Witness for the C9 amended theorem: on the concrete layout, a single
condition on the absent key `b` raises `KeyError('b')`. -/
theorem get_qubits_single_missing_key_raises_witness :
    exLayoutC9.get_qubits [("b", .int 2)] =
      .error (.keyError (.str "b")) :=
  get_qubits_single_missing_key_raises exLayoutC9 "b" (.int 2)
    ⟨(.str "q", [("a", .int 0)]), by decide, rfl⟩

/-! ## Claim C8: `from_dict` mutates its input -/

/-- A record that `load_layout` processes without raising: a dict that
binds `qubit`, binds `neighbors` to a dict, and (as any Python dict literal)
has no duplicate keys. -/
def isGoodRecord : PyVal → Bool
  | .dict e =>
    (Dict.lookup? e "qubit").isSome &&
      (match Dict.lookup? e "neighbors" with
        | some (.dict _) => true
        | _ => false) &&
      decide (e.map Prod.fst).Nodup
  | _ => false

/-- The in-place mutation `load_layout` applies to a record: both the
`qubit` and the `neighbors` bindings are popped out. -/
def stripRecord : PyVal → PyVal
  | .dict e => .dict (Dict.erase (Dict.erase e "qubit") "neighbors")
  | v => v

theorem Dict.hasKey_iff_mem (d : Dict) (k : String) :
    Dict.hasKey d k = true ↔ k ∈ d.map Prod.fst := by
  induction d with
  | nil => simp [Dict.hasKey]
  | cons p rest ih =>
    obtain ⟨k0, v0⟩ := p
    by_cases hk : k0 = k
    · simp [Dict.hasKey, hk]
    · simp [Dict.hasKey, hk, ih, Ne.symm hk]

theorem Dict.lookup?_erase_ne (d : Dict) (k k2 : String) (h : k ≠ k2) :
    Dict.lookup? (Dict.erase d k) k2 = Dict.lookup? d k2 := by
  induction d with
  | nil => rfl
  | cons p rest ih =>
    obtain ⟨k0, v0⟩ := p
    by_cases hk : k0 = k
    · subst hk
      simp [Dict.erase, Dict.lookup?, h]
    · simp only [Dict.erase, if_neg hk]
      by_cases hk2 : k0 = k2
      · simp [Dict.lookup?, hk2]
      · simp [Dict.lookup?, hk2, ih]

theorem Dict.keys_erase_sublist (d : Dict) (k : String) :
    List.Sublist ((Dict.erase d k).map Prod.fst) (d.map Prod.fst) := by
  induction d with
  | nil => simp [Dict.erase]
  | cons p rest ih =>
    obtain ⟨k0, v0⟩ := p
    by_cases hk : k0 = k
    · simp only [Dict.erase, if_pos hk, List.map_cons]
      exact List.sublist_cons_self _ _
    · simp only [Dict.erase, if_neg hk, List.map_cons]
      exact List.Sublist.cons₂ _ ih

theorem Dict.not_mem_keys_erase_of_nodup (d : Dict) (k : String)
    (h : (d.map Prod.fst).Nodup) : k ∉ (Dict.erase d k).map Prod.fst := by
  induction d with
  | nil => simp [Dict.erase]
  | cons p rest ih =>
    obtain ⟨k0, v0⟩ := p
    simp only [List.map_cons, List.nodup_cons] at h
    by_cases hk : k0 = k
    · subst hk
      simp only [Dict.erase, if_pos rfl]
      exact h.1
    · simp only [Dict.erase, if_neg hk, List.map_cons, List.mem_cons]
      intro hc
      rcases hc with hc | hc
      · exact hk hc.symm
      · exact ih h.2 hc

/-- After the two pops, a good record contains neither `qubit` nor
`neighbors`. -/
theorem stripRecord_no_keys (e : List (String × PyVal))
    (h : isGoodRecord (.dict e) = true) :
    Dict.hasKey (Dict.erase (Dict.erase e "qubit") "neighbors") "qubit"
      = false ∧
    Dict.hasKey (Dict.erase (Dict.erase e "qubit") "neighbors") "neighbors"
      = false := by
  simp only [isGoodRecord, Bool.and_eq_true, decide_eq_true_eq] at h
  obtain ⟨⟨-, -⟩, hnodup⟩ := h
  constructor
  · rw [Bool.eq_false_iff]
    intro hc
    have hmem := (Dict.hasKey_iff_mem _ _).mp hc
    have hmem2 := (Dict.keys_erase_sublist (Dict.erase e "qubit")
      "neighbors").subset hmem
    exact Dict.not_mem_keys_erase_of_nodup e "qubit" hnodup hmem2
  · rw [Bool.eq_false_iff]
    intro hc
    have hmem := (Dict.hasKey_iff_mem _ _).mp hc
    have hnodup2 : ((Dict.erase e "qubit").map Prod.fst).Nodup :=
      hnodup.sublist (Dict.keys_erase_sublist e "qubit")
    exact Dict.not_mem_keys_erase_of_nodup _ "neighbors" hnodup2 hmem

/-- A good record is processed by `loadRecord` without raising, and its
post-state is exactly the record with `qubit` and `neighbors` popped out. -/
theorem loadRecord_good (g : DiGraph) (r : PyVal)
    (h : isGoodRecord r = true) :
    ∃ g2, loadRecord g r = .ok (g2, stripRecord r) := by
  match r with
  | .dict e =>
    simp only [isGoodRecord, Bool.and_eq_true] at h
    obtain ⟨⟨hq, hn⟩, -⟩ := h
    rw [Option.isSome_iff_exists] at hq
    obtain ⟨qv, hqv⟩ := hq
    have hnb : ∃ nbrs, Dict.lookup? e "neighbors" = some (.dict nbrs) := by
      cases hl : Dict.lookup? e "neighbors" with
      | none => rw [hl] at hn; cases hn
      | some v =>
        cases v with
        | dict nbrs => exact ⟨nbrs, rfl⟩
        | none => rw [hl] at hn; cases hn
        | str s => rw [hl] at hn; cases hn
        | int n => rw [hl] at hn; cases hn
        | list xs => rw [hl] at hn; cases hn
    obtain ⟨nbrs, hnbrs⟩ := hnb
    have hqn : "qubit" ≠ "neighbors" := by decide
    have hl2 : Dict.lookup? (Dict.erase e "qubit") "neighbors"
        = some (.dict nbrs) := by
      rw [Dict.lookup?_erase_ne e "qubit" "neighbors" hqn]
      exact hnbrs
    refine ⟨nbrs.foldl (fun g2 p => if p.2 = PyVal.none then g2
        else g2.addEdge qv p.2 p.1)
      (g.addNode qv (Dict.erase (Dict.erase e "qubit") "neighbors")), ?_⟩
    simp only [loadRecord, Dict.pop?, hqv, hl2, stripRecord]

/-- Folding `load_layout` over good records succeeds and returns the
stripped records in order. -/
theorem load_layout_good (records : List PyVal)
    (h : ∀ r ∈ records, isGoodRecord r = true) :
    ∃ g, load_layout records = .ok (g, records.map stripRecord) := by
  have hmain : ∀ rs : List PyVal, (∀ r ∈ rs, isGoodRecord r = true) →
      ∀ (g0 : DiGraph) (acc : List PyVal),
      ∃ g, (rs.foldlM
        (fun acc2 r => do
          let (g2, rec2) ← loadRecord acc2.1 r
          Except.ok (g2, acc2.2 ++ [rec2]))
        (g0, acc)) = .ok (g, acc ++ rs.map stripRecord) := by
    intro rs
    induction rs with
    | nil =>
      intro _ g0 acc
      refine ⟨g0, ?_⟩
      simp [pure, Except.pure]
    | cons r rest ih =>
      intro hr g0 acc
      obtain ⟨g1, hg1⟩ := loadRecord_good g0 r (hr r (List.mem_cons_self _ _))
      obtain ⟨g2, hg2⟩ := ih (fun x hx => hr x (List.mem_cons_of_mem _ hx))
        g1 (acc ++ [stripRecord r])
      refine ⟨g2, ?_⟩
      simp only [Bind.bind, Except.bind] at hg2
      simp only [List.foldlM_cons, hg1, Bind.bind, Except.bind, hg2,
        List.map_cons, List.append_assoc, List.singleton_append]
  obtain ⟨g, hg⟩ := hmain records h DiGraph.empty []
  exact ⟨g, by simpa [load_layout] using hg⟩

/-- C8 counterexample: `from_dict` does mutate its input.  On a concrete
mapping with a `name` key and one record, the post-state of the argument no
longer contains the `layout` key, and the record has lost both its `qubit`
and its `neighbors` entries — contradicting the claim that the caller's
mapping is left unchanged. -/
theorem from_dict_mutation_counterexample :
    Layout.from_dict
        [("name", .str "test"),
         ("layout", .list [.dict [("qubit", .str "q"),
            ("neighbors", .dict [])]])] =
      .ok ({ graph := { nodes := [(.str "q", [])], edges := [],
                        gattrs := [("name", .str "test")] },
             qubit_inds := [(.str "q", 0)] },
           [("name", .str "test")],
           [.dict []]) ∧
    Dict.hasKey [("name", PyVal.str "test")] "layout" = false := by
  exact ⟨rfl, rfl⟩

/-- C8 amended: `from_dict` removes the `layout` key from the caller's
mapping and pops `qubit` and `neighbors` out of every record; the layout is
built from the so-mutated data (the remaining keys becoming graph-level
attributes). -/
theorem from_dict_mutates (attributes : Dict) (records : List PyVal)
    (hl : Dict.lookup? attributes "layout" = some (.list records))
    (hgood : ∀ r ∈ records, isGoodRecord r = true) :
    ∃ g, load_layout records = .ok (g, records.map stripRecord) ∧
      Layout.from_dict attributes =
        .ok (Layout.init g (Dict.erase attributes "layout"),
             Dict.erase attributes "layout",
             records.map stripRecord) ∧
      (∀ e, PyVal.dict e ∈ records.map stripRecord →
        Dict.hasKey e "qubit" = false ∧
        Dict.hasKey e "neighbors" = false) := by
  obtain ⟨g, hg⟩ := load_layout_good records hgood
  refine ⟨g, hg, ?_, ?_⟩
  · simp only [Layout.from_dict, Dict.pop?, hl, hg, Bind.bind, Except.bind]
  · intro e hmem
    obtain ⟨r, hr, hstrip⟩ := List.mem_map.mp hmem
    have hgr := hgood r hr
    match r with
    | .dict e0 =>
      have he : e = Dict.erase (Dict.erase e0 "qubit") "neighbors" := by
        have : stripRecord (.dict e0)
            = .dict (Dict.erase (Dict.erase e0 "qubit") "neighbors") := rfl
        rw [this] at hstrip
        exact (PyVal.dict.inj hstrip).symm
      rw [he]
      exact stripRecord_no_keys e0 hgr
    | .none => cases hgr
    | .str s => cases hgr
    | .int n => cases hgr
    | .list xs => cases hgr

/-- Witness for the C8 amended theorem at a concrete two-key mapping. -/
theorem from_dict_mutates_witness :
    ∃ g, load_layout [.dict [("qubit", .str "q"), ("neighbors", .dict [])]]
        = .ok (g, [.dict []]) ∧
      Layout.from_dict
          [("name", .str "w"),
           ("layout", .list [.dict [("qubit", .str "q"),
              ("neighbors", .dict [])]])] =
        .ok (Layout.init g [("name", .str "w")],
             [("name", .str "w")], [.dict []]) ∧
      (∀ e, PyVal.dict e ∈ [PyVal.dict []] →
        Dict.hasKey e "qubit" = false ∧
        Dict.hasKey e "neighbors" = false) :=
  from_dict_mutates
    [("name", .str "w"),
     ("layout", .list [.dict [("qubit", .str "q"), ("neighbors", .dict [])]])]
    [.dict [("qubit", .str "q"), ("neighbors", .dict [])]]
    rfl (by decide)

/-! ## Claim C10: `index_qubits` and the stale `_qubit_inds` mapping -/

theorem List.lookup_zip_of_mem_nodup (l : List PyVal) (ns : List Nat)
    (hnodup : l.Nodup) (q : PyVal) (i : Nat)
    (hmem : (q, i) ∈ l.zip ns) : List.lookup q (l.zip ns) = some i := by
  induction l generalizing ns with
  | nil => cases hmem
  | cons q0 l2 ih =>
    cases ns with
    | nil => cases hmem
    | cons n0 ns2 =>
      simp only [List.zip_cons_cons, List.mem_cons] at hmem
      rcases hmem with hmem | hmem
      · have hq' : q = q0 := congrArg Prod.fst hmem
        have hi' : i = n0 := congrArg Prod.snd hmem
        subst hq'
        subst hi'
        simp [List.lookup]
      · have hq0 : q ≠ q0 := by
          intro hq
          subst hq
          exact (List.nodup_cons.mp hnodup).1 (List.of_mem_zip hmem).1
        have hbeq : (q == q0) = false := beq_eq_false_iff_ne.mpr hq0
        simp only [List.lookup, hbeq]
        exact ih ns2 (List.nodup_cons.mp hnodup).2 hmem

theorem List.lookup_zip_of_not_mem (l : List PyVal) (ns : List Nat)
    (q : PyVal) (hq : q ∉ l) : List.lookup q (l.zip ns) = Option.none := by
  induction l generalizing ns with
  | nil => cases ns <;> rfl
  | cons q0 l2 ih =>
    cases ns with
    | nil => rfl
    | cons n0 ns2 =>
      have hq0 : q ≠ q0 := fun hc => hq (hc ▸ List.mem_cons_self _ _)
      have hbeq : (q == q0) = false := beq_eq_false_iff_ne.mpr hq0
      simp only [List.zip_cons_cons, List.lookup, hbeq]
      exact ih ns2 (fun hc => hq (List.mem_cons_of_mem _ hc))

/-- Relabeling every label through the zip-range lookup yields the integer
labels `0..N-1` in order. -/
theorem map_zip_range_lookup (l : List PyVal) (ns : List Nat)
    (hnodup : l.Nodup) (hlen : l.length = ns.length) :
    l.map (fun q =>
      match List.lookup q (l.zip ns) with
      | some i => PyVal.int i
      | Option.none => q) = ns.map (fun i : Nat => PyVal.int i) := by
  induction l generalizing ns with
  | nil =>
    cases ns with
    | nil => rfl
    | cons n0 ns2 => cases hlen
  | cons q0 l2 ih =>
    cases ns with
    | nil => cases hlen
    | cons n0 ns2 =>
      have hnd := List.nodup_cons.mp hnodup
      simp only [List.zip_cons_cons, List.map_cons]
      have hhead : List.lookup q0 ((q0, n0) :: l2.zip ns2) = some n0 := by
        simp [List.lookup]
      rw [hhead]
      have htail : l2.map (fun q =>
          match List.lookup q ((q0, n0) :: l2.zip ns2) with
          | some i => PyVal.int i
          | Option.none => q) = l2.map (fun q =>
          match List.lookup q (l2.zip ns2) with
          | some i => PyVal.int i
          | Option.none => q) := by
        apply List.map_congr_left
        intro q hq
        have hq0 : q ≠ q0 := fun hc => hnd.1 (hc ▸ hq)
        have hbeq : (q == q0) = false := beq_eq_false_iff_ne.mpr hq0
        simp only [List.lookup, hbeq]
      rw [htail, ih ns2 hnd.2 (by simpa using hlen)]

/-- `setNodeAttr` does not change the node labels. -/
theorem DiGraph.labels_setNodeAttr (g : DiGraph) (q : PyVal) (k : String)
    (v : PyVal) : (g.setNodeAttr q k v).labels = g.labels := by
  simp only [DiGraph.labels, DiGraph.setNodeAttr, List.map_map]
  apply List.map_congr_left
  intro p _
  by_cases hp : p.1 = q
  · simp [hp]
  · simp [hp]

/-- Folding `name`-attribute writes does not change the node labels. -/
theorem labels_foldl_setNodeAttr (mapping : List (PyVal × Nat))
    (g : DiGraph) :
    (mapping.foldl (fun g2 p => g2.setNodeAttr (PyVal.int p.2) "name" p.1)
      g).labels = g.labels := by
  induction mapping generalizing g with
  | nil => rfl
  | cons p rest ih =>
    simp only [List.foldl_cons]
    rw [ih, DiGraph.labels_setNodeAttr]

/-- C10: `index_qubits` swaps in the integer-relabeled graph without
rebuilding `_qubit_inds`.  On the returned layout (for a layout whose labels
are distinct strings, as produced by `from_dict`): the index mapping still
holds exactly the original labels with their construction-time ordinals, so
`get_inds` on an original label returns its original ordinal; `get_inds` on
any integer label raises `KeyError`; yet the graph's qubits are now the
integers `0..N-1` in construction order. -/
theorem index_qubits_stale_inds (L : Layout)
    (hnodup : L.graph.labels.Nodup)
    (hstr : ∀ q ∈ L.graph.labels, ∃ s, q = PyVal.str s) :
    ((L.index_qubits).qubit_inds
        = L.graph.labels.zip (List.range L.graph.labels.length)) ∧
    (∀ q i, (q, i) ∈ L.graph.labels.zip (List.range L.graph.labels.length) →
      (L.index_qubits).get_inds [q] = .ok [i]) ∧
    (∀ n : Int, (L.index_qubits).get_inds [.int n]
        = .error (.keyError (.int n))) ∧
    ((L.index_qubits).graph.labels
        = (List.range L.graph.labels.length).map
          (fun i : Nat => PyVal.int i)) := by
  have hinds : (L.index_qubits).qubit_inds
      = L.graph.labels.zip (List.range L.graph.labels.length) := rfl
  refine ⟨hinds, ?_, ?_, ?_⟩
  · intro q i hmem
    simp only [Layout.get_inds, List.mapM_cons, List.mapM_nil, hinds,
      List.lookup_zip_of_mem_nodup L.graph.labels _ hnodup q i hmem]
    rfl
  · intro n
    have hnotmem : PyVal.int n ∉ L.graph.labels := by
      intro hc
      obtain ⟨s, hs⟩ := hstr _ hc
      cases hs
    simp only [Layout.get_inds, List.mapM_cons, List.mapM_nil, hinds,
      List.lookup_zip_of_not_mem L.graph.labels _ _ hnotmem]
    rfl
  · have hgraph : (L.index_qubits).graph =
        (L.graph.labels.zip (List.range L.graph.labels.length)).foldl
          (fun g2 p => g2.setNodeAttr (PyVal.int p.2) "name" p.1)
          ((Layout.init L.graph []).graph.relabel (fun q =>
            match List.lookup q
                (L.graph.labels.zip (List.range L.graph.labels.length)) with
            | some i => PyVal.int i
            | Option.none => q)) := rfl
    rw [hgraph, labels_foldl_setNodeAttr]
    have hrel : ∀ (g : DiGraph) (m : PyVal → PyVal),
        (g.relabel m).labels = g.labels.map m := by
      intro g m
      simp [DiGraph.relabel, DiGraph.labels, List.map_map]
    rw [hrel]
    have hlabels : (Layout.init L.graph []).graph.labels = L.graph.labels :=
      rfl
    rw [hlabels]
    exact map_zip_range_lookup L.graph.labels _ hnodup (by simp)

/-- A concrete two-qubit layout for the C10 witness. -/
def exLayoutC10 : Layout :=
  Layout.init
    ⟨[(.str "a", [("role", .str "data")]),
      (.str "b", [("role", .str "anc")])],
     [(.str "a", .str "b", "north_east")], []⟩ []

/-- Witness for C10 on the concrete layout: original labels still resolve to
their construction-time ordinals, integer labels raise `KeyError`, and the
relabeled graph's qubits are `0, 1`. -/
theorem index_qubits_stale_inds_witness :
    ((exLayoutC10.index_qubits).qubit_inds
        = exLayoutC10.graph.labels.zip
            (List.range exLayoutC10.graph.labels.length)) ∧
    (∀ q i, (q, i) ∈ exLayoutC10.graph.labels.zip
        (List.range exLayoutC10.graph.labels.length) →
      (exLayoutC10.index_qubits).get_inds [q] = .ok [i]) ∧
    (∀ n : Int, (exLayoutC10.index_qubits).get_inds [.int n]
        = .error (.keyError (.int n))) ∧
    ((exLayoutC10.index_qubits).graph.labels
        = (List.range exLayoutC10.graph.labels.length).map
            (fun i : Nat => PyVal.int i)) :=
  index_qubits_stale_inds exLayoutC10 (by decide)
    (by
      intro q hq
      rcases List.mem_cons.mp hq with h1 | h1
      · exact ⟨"a", h1⟩
      · rcases List.mem_cons.mp h1 with h2 | h2
        · exact ⟨"b", h2⟩
        · cases h2)

/-! ## Claims C4 and C5: the translator's lateness and connectivity rules -/

theorem lookup_replace (ts : List (PyVal × Rat)) (q : PyVal) (t : Rat)
    (h : ts.any (fun p => p.1 = q) = true) :
    List.lookup q (ts.map (fun p => if p.1 = q then (p.1, t) else p))
      = some t := by
  induction ts with
  | nil => cases h
  | cons p rest ih =>
    simp only [List.any_cons, Bool.or_eq_true, decide_eq_true_eq] at h
    by_cases hp : p.1 = q
    · subst hp
      rw [List.map_cons, if_pos rfl]
      simp [List.lookup]
    · have h2 : rest.any (fun p => p.1 = q) = true := by
        rcases h with h | h
        · exact absurd h hp
        · exact h
      have hbeq : (q == p.1) = false :=
        beq_eq_false_iff_ne.mpr (fun hc => hp hc.symm)
      rw [List.map_cons, if_neg hp]
      simp only [List.lookup, hbeq]
      exact ih h2

theorem lookup_append_single (ts : List (PyVal × Rat)) (q : PyVal) (t : Rat)
    (h : ts.any (fun p => p.1 = q) = false) :
    List.lookup q (ts ++ [(q, t)]) = some t := by
  induction ts with
  | nil => simp [List.lookup]
  | cons p rest ih =>
    simp only [List.any_cons, Bool.or_eq_false_iff, decide_eq_false_iff_not]
      at h
    have hbeq : (q == p.1) = false :=
      beq_eq_false_iff_ne.mpr (fun hc => h.1 hc.symm)
    simp only [List.cons_append, List.lookup, hbeq]
    exact ih (by simpa using h.2)

/-- `qubit_times[q] = t` followed by `qubit_times[q]` reads back `t`. -/
theorem timesGet_timesSet_self (ts : List (PyVal × Rat)) (q : PyVal)
    (t : Rat) : timesGet (timesSet ts q t) q = t := by
  unfold timesSet
  by_cases h : ts.any (fun p => p.1 = q) = true
  · rw [if_pos h]
    simp [timesGet, lookup_replace ts q t h]
  · rw [if_neg h]
    simp [timesGet, lookup_append_single ts q t (Bool.eq_false_iff.mpr h)]

/-- The initial `qubit_times` dict maps every qubit to `0.0`. -/
theorem timesGet_init (l : List PyVal) (q : PyVal) :
    timesGet (l.map (fun x => (x, (0 : Rat)))) q = 0 := by
  induction l with
  | nil => rfl
  | cons x rest ih =>
    by_cases hx : q = x
    · subst hx
      simp [timesGet, List.lookup]
    · have hbeq : (q == x) = false := beq_eq_false_iff_ne.mpr hx
      simp only [List.map_cons, timesGet, List.lookup, hbeq]
      exact ih

theorem sortQubits_singleton (q : PyVal) : sortQubits [q] = [q] := rfl

/-- C4: the translator's availability check.  (1) A 1-qubit gate on a layout
qubit succeeds exactly when the qubit's last committed end time is at most
the layer's `time_start` (appending the shifted gate and committing the new
end time), and raises the `executed before previous operation has finished`
`ValueError` exactly when the committed end time strictly exceeds
`time_start`.  (2) For a 2-qubit gate the same check is applied to both the
control and the target.  (3) End to end: two sequential gates on the same
qubit through `circuit_from_schedule` succeed when the second layer starts
exactly at the first gate's computed end time, and fail with the lateness
error when it starts strictly earlier. -/
theorem translator_lateness_rule :
    (∀ (lq : List PyVal) (label : String) (dur : Rat) (params : Dict)
        (ts : Rat) (st : TransState) (q : PyVal), q ∈ lq →
      (timesGet st.qubit_times q ≤ ts →
        process1Qubit lq label dur params ts st q =
          .ok { gates := st.gates ++
                  [{ label := label
                     qubits := [q]
                     time_start := ts
                     time_end := ts + dur
                     parameters := params }]
                qubit_times := timesSet st.qubit_times q (ts + dur)
                circ_qubits := addToSet st.circ_qubits q }) ∧
      (timesGet st.qubit_times q > ts →
        process1Qubit lq label dur params ts st q =
          .error (.valueError ("Gate " ++ label ++
            " executed before previous operation has finished.")))) ∧
    (∀ (L : Layout) (lq : List PyVal) (label : String) (dur : Rat)
        (params : Dict) (ts : Rat) (st : TransState) (ctrl target : PyVal),
      ctrl ∈ lq → target ∈ lq →
      target ∈ L.get_neighbors [ctrl] Option.none →
      ((timesGet st.qubit_times ctrl > ts ∨
          timesGet st.qubit_times target > ts) →
        process2Pair L lq label dur params ts st ctrl target =
          .error (.valueError ("Gate " ++ label ++
            " executed before previous operation has finished."))) ∧
      (timesGet st.qubit_times ctrl ≤ ts →
        timesGet st.qubit_times target ≤ ts →
        process2Pair L lq label dur params ts st ctrl target =
          .ok { gates := st.gates ++
                  [{ label := label
                     qubits := [ctrl, target]
                     time_start := ts
                     time_end := ts + dur
                     parameters := params }]
                qubit_times := timesSet (timesSet st.qubit_times ctrl
                  (ts + dur)) target (ts + dur)
                circ_qubits := addToSet (addToSet st.circ_qubits ctrl)
                  target })) ∧
    (∀ (L : Layout) (q : PyVal) (label : String) (dur : Rat) (m : Model)
        (params : Dict) (ts2 ct : Rat),
      q ∈ L.graph.labels → m.durations label = some dur →
      ((dur ≤ ts2 →
        circuit_from_schedule
          ⟨[⟨0, [⟨label, 1, [q], params⟩]⟩, ⟨ts2, [⟨label, 1, [q], params⟩]⟩],
           ct⟩ L m =
          .ok ([q],
            [{ label := label
               qubits := [q]
               time_start := 0
               time_end := 0 + dur
               parameters := params },
             { label := label
               qubits := [q]
               time_start := ts2
               time_end := ts2 + dur
               parameters := params }])) ∧
      (ts2 < dur →
        circuit_from_schedule
          ⟨[⟨0, [⟨label, 1, [q], params⟩]⟩, ⟨ts2, [⟨label, 1, [q], params⟩]⟩],
           ct⟩ L m =
          .error (.valueError ("Gate " ++ label ++
            " executed before previous operation has finished."))))) := by
  refine ⟨?_, ?_, ?_⟩
  · intro lq label dur params ts st q hq
    constructor
    · intro hle
      simp only [process1Qubit, if_neg (not_not_intro hq),
        if_neg (not_lt.mpr hle)]
    · intro hgt
      simp only [process1Qubit, if_neg (not_not_intro hq), if_pos hgt]
  · intro L lq label dur params ts st ctrl target hctrl htarget hnbr
    have hin : ¬ (ctrl ∉ lq ∨ target ∉ lq) := by
      push_neg
      exact ⟨hctrl, htarget⟩
    constructor
    · intro hlate
      simp only [process2Pair, if_neg hin, if_neg (not_not_intro hnbr),
        if_pos hlate]
    · intro hle1 hle2
      have hnl : ¬ (timesGet st.qubit_times ctrl > ts ∨
          timesGet st.qubit_times target > ts) := by
        push_neg
        exact ⟨hle1, hle2⟩
      simp only [process2Pair, if_neg hin, if_neg (not_not_intro hnbr),
        if_neg hnl]
  · intro L q label dur m params ts2 ct hq hm
    constructor
    · intro hle
      simp [circuit_from_schedule, processLayer, processGate, process1Qubit,
        hm, Bind.bind, Except.bind, pure, Except.pure, hq,
        timesGet_init, timesGet_timesSet_self, lt_self_iff_false,
        not_lt.mpr hle, sortQubits, addToSet, List.insertionSort,
        List.orderedInsert, zero_add]
    · intro hlt
      simp [circuit_from_schedule, processLayer, processGate, process1Qubit,
        hm, Bind.bind, Except.bind, pure, Except.pure, hq,
        timesGet_init, timesGet_timesSet_self, lt_self_iff_false,
        hlt, sortQubits, addToSet, zero_add]

/-- A two-qubit coupled layout (`a — b`) used by the C4 witness. -/
def exLayoutC4 : Layout :=
  Layout.init ⟨[(.str "a", []), (.str "b", [])],
    [(.str "a", .str "b", "north_east")], []⟩ []

/-- Witness for C4 at concrete inputs: an on-time 1-qubit gate succeeds, a
late one raises; a late 2-qubit gate raises; and the two-layer schedule whose
second gate starts exactly at the first gate's end time succeeds end to
end. -/
theorem translator_lateness_rule_witness :
    (process1Qubit [PyVal.str "a"] "g" 2 [] 0
        { gates := [], qubit_times := [(.str "a", 0)], circ_qubits := [] }
        (.str "a") =
      .ok { gates :=
              ({ gates := [], qubit_times := [(.str "a", 0)],
                 circ_qubits := [] } : TransState).gates ++
              [{ label := "g"
                 qubits := [.str "a"]
                 time_start := 0
                 time_end := 0 + 2
                 parameters := [] }]
            qubit_times := timesSet [(.str "a", 0)] (.str "a") (0 + 2)
            circ_qubits := addToSet [] (.str "a") }) ∧
    (process1Qubit [PyVal.str "a"] "g" 2 [] 0
        { gates := [], qubit_times := [(.str "a", 3)], circ_qubits := [] }
        (.str "a") =
      .error (.valueError
        ("Gate " ++ "g" ++
          " executed before previous operation has finished."))) ∧
    (process2Pair exLayoutC4 exLayoutC4.graph.labels "cz" 2 [] 0
        { gates := [], qubit_times := [(.str "a", 1), (.str "b", 0)],
          circ_qubits := [] } (.str "a") (.str "b") =
      .error (.valueError
        ("Gate " ++ "cz" ++
          " executed before previous operation has finished."))) ∧
    (circuit_from_schedule
        ⟨[⟨0, [⟨"g", 1, [.str "a"], []⟩]⟩, ⟨2, [⟨"g", 1, [.str "a"], []⟩]⟩],
         10⟩ exLayoutC4 ⟨fun _ => some 2⟩ =
      .ok ([.str "a"],
        [{ label := "g"
           qubits := [.str "a"]
           time_start := 0
           time_end := 0 + 2
           parameters := [] },
         { label := "g"
           qubits := [.str "a"]
           time_start := 2
           time_end := 2 + 2
           parameters := [] }])) :=
  ⟨(translator_lateness_rule.1 [PyVal.str "a"] "g" 2 [] 0
      ⟨[], [(.str "a", 0)], []⟩ (.str "a") (by decide)).1 (by decide),
   (translator_lateness_rule.1 [PyVal.str "a"] "g" 2 [] 0
      ⟨[], [(.str "a", 3)], []⟩ (.str "a") (by decide)).2 (by decide),
   (translator_lateness_rule.2.1 exLayoutC4 exLayoutC4.graph.labels "cz" 2 []
      0 ⟨[], [(.str "a", 1), (.str "b", 0)], []⟩ (.str "a") (.str "b")
      (by decide) (by decide) (by decide)).1 (by decide),
   (translator_lateness_rule.2.2 exLayoutC4 (.str "a") "g" 2
      ⟨fun _ => some 2⟩ [] 2 10 (by decide) rfl).1 (by decide)⟩

/-- C5: the translator's connectivity rule for 2-qubit gates.  For every
`(ctrl, target)` pair: if either qubit is absent from the layout the
`not in layout` `ValueError` is raised; if both are present but the target
is not among the control's neighbors in the layout graph, the `not coupled`
`ValueError` is raised; and when the qubits are adjacent and the timing
check passes, the shifted gate is appended and both qubits' committed times
are updated to the gate's end time. -/
theorem translator_connectivity_rule :
    (∀ (L : Layout) (lq : List PyVal) (label : String) (dur : Rat)
        (params : Dict) (ts : Rat) (st : TransState) (ctrl target : PyVal),
      (ctrl ∉ lq ∨ target ∉ lq) →
      process2Pair L lq label dur params ts st ctrl target =
        .error (.valueError ("Qubit(s) " ++ pyStr ctrl ++ ", " ++
          pyStr target ++ "  not in layout."))) ∧
    (∀ (L : Layout) (lq : List PyVal) (label : String) (dur : Rat)
        (params : Dict) (ts : Rat) (st : TransState) (ctrl target : PyVal),
      ctrl ∈ lq → target ∈ lq →
      target ∉ L.get_neighbors [ctrl] Option.none →
      process2Pair L lq label dur params ts st ctrl target =
        .error (.valueError ("Qubit " ++ pyStr target ++
          " not coupled to " ++ pyStr ctrl ++ " in layout."))) ∧
    (∀ (L : Layout) (lq : List PyVal) (label : String) (dur : Rat)
        (params : Dict) (ts : Rat) (st : TransState) (ctrl target : PyVal),
      ctrl ∈ lq → target ∈ lq →
      target ∈ L.get_neighbors [ctrl] Option.none →
      timesGet st.qubit_times ctrl ≤ ts →
      timesGet st.qubit_times target ≤ ts →
      process2Pair L lq label dur params ts st ctrl target =
        .ok { gates := st.gates ++
                [{ label := label
                   qubits := [ctrl, target]
                   time_start := ts
                   time_end := ts + dur
                   parameters := params }]
              qubit_times := timesSet (timesSet st.qubit_times ctrl
                (ts + dur)) target (ts + dur)
              circ_qubits := addToSet (addToSet st.circ_qubits ctrl)
                target }) := by
  refine ⟨?_, ?_, ?_⟩
  · intro L lq label dur params ts st ctrl target habs
    simp only [process2Pair, if_pos habs]
  · intro L lq label dur params ts st ctrl target hctrl htarget hnc
    have hin : ¬ (ctrl ∉ lq ∨ target ∉ lq) := by
      push_neg
      exact ⟨hctrl, htarget⟩
    simp only [process2Pair, if_neg hin, if_pos hnc]
  · intro L lq label dur params ts st ctrl target hctrl htarget hnbr hle1 hle2
    have hin : ¬ (ctrl ∉ lq ∨ target ∉ lq) := by
      push_neg
      exact ⟨hctrl, htarget⟩
    have hnl : ¬ (timesGet st.qubit_times ctrl > ts ∨
        timesGet st.qubit_times target > ts) := by
      push_neg
      exact ⟨hle1, hle2⟩
    simp only [process2Pair, if_neg hin, if_neg (not_not_intro hnbr),
      if_neg hnl]

/-- A three-qubit layout (`a — b` coupled, `c` isolated) for the C5
witness. -/
def exLayoutC5 : Layout :=
  Layout.init ⟨[(.str "a", []), (.str "b", []), (.str "c", [])],
    [(.str "a", .str "b", "north_east")], []⟩ []

/-- Witness for C5 at concrete inputs: a pair with an absent qubit raises
`not in layout`; a pair of uncoupled layout qubits raises `not coupled`; an
adjacent on-time pair appends the gate and commits both end times. -/
theorem translator_connectivity_rule_witness :
    (process2Pair exLayoutC5 exLayoutC5.graph.labels "cz" 2 [] 0
        { gates := [], qubit_times := [], circ_qubits := [] }
        (.str "a") (.str "z") =
      .error (.valueError ("Qubit(s) " ++ pyStr (.str "a") ++ ", " ++
        pyStr (.str "z") ++ "  not in layout."))) ∧
    (process2Pair exLayoutC5 exLayoutC5.graph.labels "cz" 2 [] 0
        { gates := [], qubit_times := [], circ_qubits := [] }
        (.str "a") (.str "c") =
      .error (.valueError ("Qubit " ++ pyStr (.str "c") ++
        " not coupled to " ++ pyStr (.str "a") ++ " in layout."))) ∧
    (process2Pair exLayoutC5 exLayoutC5.graph.labels "cz" 2 [] 0
        { gates := [], qubit_times := [(.str "a", 0), (.str "b", 0)],
          circ_qubits := [] } (.str "a") (.str "b") =
      .ok { gates :=
              ({ gates := [], qubit_times := [(.str "a", 0), (.str "b", 0)],
                 circ_qubits := [] } : TransState).gates ++
              [{ label := "cz"
                 qubits := [.str "a", .str "b"]
                 time_start := 0
                 time_end := 0 + 2
                 parameters := [] }]
            qubit_times := timesSet (timesSet
              [(.str "a", 0), (.str "b", 0)] (.str "a") (0 + 2)) (.str "b")
              (0 + 2)
            circ_qubits := addToSet (addToSet [] (.str "a")) (.str "b") }) :=
  ⟨translator_connectivity_rule.1 exLayoutC5 exLayoutC5.graph.labels "cz" 2
      [] 0 ⟨[], [], []⟩ (.str "a") (.str "z") (by decide),
   translator_connectivity_rule.2.1 exLayoutC5 exLayoutC5.graph.labels "cz" 2
      [] 0 ⟨[], [], []⟩ (.str "a") (.str "c") (by decide) (by decide)
      (by decide),
   translator_connectivity_rule.2.2 exLayoutC5 exLayoutC5.graph.labels "cz" 2
      [] 0 ⟨[], [(.str "a", 0), (.str "b", 0)], []⟩ (.str "a") (.str "b")
      (by decide) (by decide) (by decide) (by decide) (by decide)⟩

/-! ## Claim C7: `expansion_matrix` -/

/-- The ancilla records of a layout: the nodes whose `role` is `anc`. -/
def ancNodesOf (L : Layout) : List (PyVal × Dict) :=
  L.graph.nodes.filter
    (fun p => decide (Dict.lookup? p.2 "role" = some (PyVal.str "anc")))

/-- Check that a node carries an `[int, int]` `coords` attribute. -/
def hasIntCoords (p : PyVal × Dict) : Bool :=
  match Dict.lookup? p.2 "coords" with
  | some v => (coordPair? v).isSome
  | Option.none => false

/-- The `(row, col)` pairs of the ancilla nodes, in node order. -/
def ancCoords (L : Layout) : List (Int × Int) :=
  (ancNodesOf L).filterMap
    (fun p => (Dict.lookup? p.2 "coords").bind coordPair?)

def rowsOf (L : Layout) : List Int := (ancCoords L).map (·.1)

def colsOf (L : Layout) : List Int := (ancCoords L).map (·.2)

theorem selectAnc_ok (nodes : List (PyVal × Dict))
    (h : ∀ p ∈ nodes, (Dict.lookup? p.2 "role").isSome) :
    selectAnc nodes = .ok (nodes.filter
      (fun p => decide (Dict.lookup? p.2 "role"
        = some (PyVal.str "anc")))) := by
  induction nodes with
  | nil => rfl
  | cons p rest ih =>
    have hp := h p (List.mem_cons_self _ _)
    rw [Option.isSome_iff_exists] at hp
    obtain ⟨v, hv⟩ := hp
    have ihr := ih (fun x hx => h x (List.mem_cons_of_mem _ hx))
    by_cases hanc : v = PyVal.str "anc"
    · subst hanc
      simp [selectAnc, hv, ihr, Bind.bind, Except.bind, List.filter_cons]
    · simp [selectAnc, hv, ihr, Bind.bind, Except.bind, List.filter_cons,
        hanc]

theorem collectCoords_ok (nodes : List (PyVal × Dict))
    (h : ∀ p ∈ nodes, hasIntCoords p = true) :
    collectCoords nodes = .ok (nodes.filterMap
      (fun p => (Dict.lookup? p.2 "coords").bind coordPair?)) := by
  induction nodes with
  | nil => rfl
  | cons p rest ih =>
    have hp := h p (List.mem_cons_self _ _)
    unfold hasIntCoords at hp
    cases hl : Dict.lookup? p.2 "coords" with
    | none => rw [hl] at hp; cases hp
    | some v =>
      rw [hl] at hp
      have hp2 : (coordPair? v).isSome := by simpa using hp
      rw [Option.isSome_iff_exists] at hp2
      obtain ⟨rc, hcp⟩ := hp2
      have ihr := ih (fun x hx => h x (List.mem_cons_of_mem _ hx))
      simp [collectCoords, hl, hcp, ihr, Bind.bind, Except.bind,
        List.filterMap_cons, Option.bind]

theorem lookup_zip_indexOf (u : List Int) (ns : List Nat) (c : Int)
    (hc : c ∈ u) :
    List.lookup c (u.zip ns) = ns[List.indexOf c u]? := by
  induction u generalizing ns with
  | nil => cases hc
  | cons u0 urest ih =>
    cases ns with
    | nil => simp
    | cons n0 nrest =>
      by_cases h0 : c = u0
      · subst h0
        simp [List.lookup, List.indexOf_cons_self]
      · have hbeq : (c == u0) = false := beq_eq_false_iff_ne.mpr h0
        have hmem : c ∈ urest := by
          rcases List.mem_cons.mp hc with h | h
          · exact absurd h h0
          · exact h
        rw [List.zip_cons_cons]
        rw [List.indexOf_cons_ne _ (Ne.symm h0)]
        simp only [List.lookup, hbeq, List.getElem?_cons_succ]
        exact ih nrest hmem

theorem index_coords_natural (unique_vals coords : List Int)
    (hmem : ∀ c ∈ coords, c ∈ unique_vals) :
    index_coords unique_vals coords false =
      (coords.map (fun c => List.indexOf c unique_vals),
       unique_vals.length) := by
  unfold index_coords
  simp only [Bool.false_eq_true, if_false]
  refine congrArg (fun x => (x, _)) ?_
  apply List.map_congr_left
  intro c hc
  have hcu : c ∈ unique_vals := hmem c hc
  have hidx : List.indexOf c unique_vals < unique_vals.length :=
    List.indexOf_lt_length.mpr hcu
  rw [lookup_zip_indexOf _ _ _ hcu, List.getElem?_range hidx]
  rfl

theorem index_coords_reverse (unique_vals coords : List Int)
    (hmem : ∀ c ∈ coords, c ∈ unique_vals) :
    index_coords unique_vals coords true =
      (coords.map (fun c => unique_vals.length - 1 -
          List.indexOf c unique_vals),
       unique_vals.length) := by
  unfold index_coords
  simp only [if_true]
  refine congrArg (fun x => (x, _)) ?_
  apply List.map_congr_left
  intro c hc
  have hcu : c ∈ unique_vals := hmem c hc
  have hidx : List.indexOf c unique_vals < unique_vals.length :=
    List.indexOf_lt_length.mpr hcu
  have hlen : List.indexOf c unique_vals
      < (List.range unique_vals.length).length := by
    simpa using hidx
  rw [lookup_zip_indexOf _ _ _ hcu, List.getElem?_reverse hlen]
  have hlt : (List.range unique_vals.length).length - 1 -
      List.indexOf c unique_vals
      < unique_vals.length := by
    simp only [List.length_range]
    omega
  rw [List.getElem?_range (by simpa using hlt)]
  simp

theorem indexOf_lt_of_sorted_nodup :
    ∀ u : List Int, List.Sorted (fun a b => a ≤ b) u → u.Nodup →
    ∀ a b : Int, a ∈ u → b ∈ u → a < b →
    List.indexOf a u < List.indexOf b u := by
  intro u
  induction u with
  | nil => intro _ _ a b ha; cases ha
  | cons u0 rest ih =>
    intro hs hn a b ha hb hab
    have hs2 := List.sorted_cons.mp hs
    have hn2 := List.nodup_cons.mp hn
    by_cases ha0 : a = u0
    · subst ha0
      have hbne : b ≠ a := ne_of_gt hab
      have hbr : b ∈ rest := by
        rcases List.mem_cons.mp hb with h | h
        · exact absurd h hbne
        · exact h
      rw [List.indexOf_cons_self, List.indexOf_cons_ne _ (Ne.symm hbne)]
      exact Nat.succ_pos _
    · have har : a ∈ rest := by
        rcases List.mem_cons.mp ha with h | h
        · exact absurd h ha0
        · exact h
      by_cases hb0 : b = u0
      · subst hb0
        have hba : b ≤ a := hs2.1 a har
        exact absurd hab (not_lt.mpr hba)
      · have hbr : b ∈ rest := by
          rcases List.mem_cons.mp hb with h | h
          · exact absurd h hb0
          · exact h
        rw [List.indexOf_cons_ne _ (Ne.symm ha0),
          List.indexOf_cons_ne _ (Ne.symm hb0)]
        exact Nat.succ_lt_succ (ih hs2.2 hn2.2 a b har hbr hab)

theorem indexOf_max_of_sorted_nodup :
    ∀ u : List Int, List.Sorted (fun a b => a ≤ b) u → u.Nodup →
    ∀ r : Int, r ∈ u → (∀ x ∈ u, x ≤ r) →
    List.indexOf r u = u.length - 1 := by
  intro u
  induction u with
  | nil => intro _ _ r hr; cases hr
  | cons u0 rest ih =>
    intro hs hn r hr hmax
    have hs2 := List.sorted_cons.mp hs
    have hn2 := List.nodup_cons.mp hn
    cases rest with
    | nil =>
      rcases List.mem_cons.mp hr with h | h
      · subst h
        simp [List.indexOf_cons_self]
      · cases h
    | cons r1 rest2 =>
      by_cases hr0 : r = u0
      · subst hr0
        exfalso
        have h1 : r1 ≤ r := hmax r1 (by simp)
        have h2 : r ≤ r1 := hs2.1 r1 (by simp)
        have : r1 = r := le_antisymm h1 h2
        exact hn2.1 (this ▸ List.mem_cons_self r1 rest2)
      · have hrr : r ∈ r1 :: rest2 := by
          rcases List.mem_cons.mp hr with h | h
          · exact absurd h hr0
          · exact h
        rw [List.indexOf_cons_ne _ (Ne.symm hr0)]
        rw [ih hs2.2 hn2.2 r hrr (fun x hx => hmax x (List.mem_cons_of_mem _ hx))]
        simp [List.length_cons]

/-- C7 counterexample: on a layout whose premise the claim satisfies
vacuously (no ancillas at all, every stored coordinate an integer pair),
`expansion_matrix` does not return a `(0, 1, ...)`-shaped tensor — the
Python `rows, cols = zip(*coords)` unpacking of the empty coordinate list
raises `ValueError`.  (The set iteration sequences are the true — empty —
ones; the failure happens before they are consulted.) -/
def exLayoutC7 : Layout :=
  Layout.init ⟨[(.str "d",
    [("role", .str "data"), ("coords", .list [.int 1, .int 1])])], [], []⟩ []

theorem expansion_matrix_counterexample :
    exLayoutC7.expansion_matrix [] [] =
      .error (.valueError "not enough values to unpack (expected 2, got 0)") :=
  rfl

/-- C7 amended: for every layout with a `role` attribute on each node, at
least one ancilla, and an `[int, int]` `coords` pair on each ancilla, and
for whatever iteration sequences the interpreter's `set(rows)` /
`set(cols)` produce (any enumeration of the distinct values —
implementation-defined hash order), `expansion_matrix` returns the
`(num_anc × 1 × num_rows × num_cols)` boolean indicator tensor with one
`True` per ancilla, rows indexed by reversed position in the row
iteration sequence and columns by position in the column iteration
sequence.  The claimed grid layout — largest row coordinate at row index
`0`, columns in increasing coordinate order — holds exactly when those
sequences are ascending, which CPython guarantees only for small
collision-free non-negative coordinates, not for arbitrary integer
coords. -/
theorem expansion_matrix_spec (L : Layout) (rowOrder colOrder : List Int)
    (hrole : ∀ p ∈ L.graph.nodes, (Dict.lookup? p.2 "role").isSome)
    (hanc : ancNodesOf L ≠ [])
    (hcoords : ∀ p ∈ ancNodesOf L, hasIntCoords p = true)
    (hrowO : SetOrder (rowsOf L) rowOrder)
    (hcolO : SetOrder (colsOf L) colOrder) :
    ∃ E, L.expansion_matrix rowOrder colOrder = .ok E ∧
      E.anc_qubits = (ancNodesOf L).map (·.1) ∧
      E.num_channels = 1 ∧
      E.num_rows = rowOrder.length ∧
      E.num_cols = colOrder.length ∧
      E.row_inds = (rowsOf L).map
        (fun r => rowOrder.length - 1 - List.indexOf r rowOrder) ∧
      E.col_inds = (colsOf L).map (fun c => List.indexOf c colOrder) ∧
      (∀ a ch r c, E.entry a ch r c = true ↔
        ch = 0 ∧ E.row_inds.get? a = some r ∧ E.col_inds.get? a = some c) ∧
      (List.Sorted (fun a b => a ≤ b) rowOrder →
        (∀ r1 r2, r1 ∈ rowsOf L → r2 ∈ rowsOf L → r1 < r2 →
          rowOrder.length - 1 - List.indexOf r2 rowOrder
            < rowOrder.length - 1 - List.indexOf r1 rowOrder) ∧
        (∀ r, r ∈ rowsOf L → (∀ r2 ∈ rowsOf L, r2 ≤ r) →
          rowOrder.length - 1 - List.indexOf r rowOrder = 0)) ∧
      (List.Sorted (fun a b => a ≤ b) colOrder →
        ∀ c1 c2, c1 ∈ colsOf L → c2 ∈ colsOf L → c1 < c2 →
          List.indexOf c1 colOrder < List.indexOf c2 colOrder) := by
  have hsel : selectAnc L.graph.nodes = .ok (ancNodesOf L) :=
    selectAnc_ok _ hrole
  have hcolc : collectCoords (ancNodesOf L) = .ok (ancCoords L) :=
    collectCoords_ok _ hcoords
  have hne : ancCoords L ≠ [] := by
    unfold ancCoords
    cases hcase : ancNodesOf L with
    | nil => exact absurd hcase hanc
    | cons p rest =>
      have hp := hcoords p (by rw [hcase]; exact List.mem_cons_self _ _)
      unfold hasIntCoords at hp
      cases hl : Dict.lookup? p.2 "coords" with
      | none => rw [hl] at hp; cases hp
      | some v =>
        rw [hl] at hp
        have hp2 : (coordPair? v).isSome := by simpa using hp
        rw [Option.isSome_iff_exists] at hp2
        obtain ⟨rc, hcp⟩ := hp2
        simp [List.filterMap_cons, hl, hcp, Option.bind]
  have hmemr : ∀ c ∈ rowsOf L, c ∈ rowOrder := hrowO.2.2
  have hmemc : ∀ c ∈ colsOf L, c ∈ colOrder := hcolO.2.2
  have hmain : L.expansion_matrix rowOrder colOrder = .ok
      { anc_qubits := (ancNodesOf L).map (fun p => p.1)
        num_rows := rowOrder.length
        num_cols := colOrder.length
        row_inds := (rowsOf L).map
          (fun r => rowOrder.length - 1 - List.indexOf r rowOrder)
        col_inds := (colsOf L).map (fun c => List.indexOf c colOrder) } := by
    unfold Layout.expansion_matrix
    simp only [hsel, hcolc, Bind.bind, Except.bind, if_neg hne]
    rw [index_coords_reverse rowOrder
        ((ancCoords L).map (fun x : Int × Int => x.1)) hmemr,
      index_coords_natural colOrder
        ((ancCoords L).map (fun x : Int × Int => x.2)) hmemc]
    rfl
  refine ⟨_, hmain, rfl, rfl, rfl, rfl, rfl, rfl, ?_, ?_, ?_⟩
  · intro a ch r c
    unfold ExpansionMatrix.entry
    rw [decide_eq_true_iff]
  · intro hsorted
    constructor
    · intro r1 r2 h1 h2 hlt
      have hm2 : r2 ∈ rowOrder := hmemr r2 h2
      have hmono := indexOf_lt_of_sorted_nodup rowOrder hsorted hrowO.1
        r1 r2 (hmemr r1 h1) hm2 hlt
      have hb2 : List.indexOf r2 rowOrder < rowOrder.length :=
        List.indexOf_lt_length.mpr hm2
      omega
    · intro r hr hmax
      have hm : r ∈ rowOrder := hmemr r hr
      have heq := indexOf_max_of_sorted_nodup rowOrder hsorted hrowO.1 r hm
        (fun x hx => hmax x (hrowO.2.1 x hx))
      rw [heq]
      have : rowOrder.length ≠ 0 := by
        intro hc
        rw [List.length_eq_zero] at hc
        rw [hc] at hm
        cases hm
      omega
  · intro hsorted c1 c2 h1 h2 hlt
    exact indexOf_lt_of_sorted_nodup colOrder hsorted hcolO.1 c1 c2
      (hmemc c1 h1) (hmemc c2 h2) hlt

/-- A layout with two ancillas (coords `(0, 2)` and `(2, 0)`) and one data
qubit, for the C7 witness.  For these small non-negative values CPython's
`set` iteration is ascending, so the iteration sequences are `[0, 2]` for
both axes and the sortedness side conditions fire. -/
def exLayoutC7b : Layout :=
  Layout.init
    ⟨[(.str "x1", [("role", .str "anc"), ("coords", .list [.int 0, .int 2])]),
      (.str "z1", [("role", .str "anc"), ("coords", .list [.int 2, .int 0])]),
      (.str "d1", [("role", .str "data"),
        ("coords", .list [.int 1, .int 1])])], [], []⟩ []

/-- Witness for the C7 amended theorem on the concrete two-ancilla layout,
with the true (ascending) set iteration sequences. -/
theorem expansion_matrix_spec_witness :
    List.Sorted (fun a b : Int => a ≤ b) [(0 : Int), 2] ∧
    (∃ E, exLayoutC7b.expansion_matrix [0, 2] [0, 2] = .ok E ∧
      E.anc_qubits = (ancNodesOf exLayoutC7b).map (·.1) ∧
      E.num_channels = 1 ∧
      E.num_rows = ([(0 : Int), 2] : List Int).length ∧
      E.num_cols = ([(0 : Int), 2] : List Int).length ∧
      E.row_inds = (rowsOf exLayoutC7b).map
        (fun r => ([(0 : Int), 2] : List Int).length - 1 -
          List.indexOf r ([(0 : Int), 2] : List Int)) ∧
      E.col_inds = (colsOf exLayoutC7b).map
        (fun c => List.indexOf c ([(0 : Int), 2] : List Int)) ∧
      (∀ a ch r c, E.entry a ch r c = true ↔
        ch = 0 ∧ E.row_inds.get? a = some r ∧ E.col_inds.get? a = some c) ∧
      (List.Sorted (fun a b => a ≤ b) ([(0 : Int), 2] : List Int) →
        (∀ r1 r2, r1 ∈ rowsOf exLayoutC7b → r2 ∈ rowsOf exLayoutC7b →
          r1 < r2 →
          ([(0 : Int), 2] : List Int).length - 1 -
              List.indexOf r2 ([(0 : Int), 2] : List Int)
            < ([(0 : Int), 2] : List Int).length - 1 -
              List.indexOf r1 ([(0 : Int), 2] : List Int)) ∧
        (∀ r, r ∈ rowsOf exLayoutC7b →
          (∀ r2 ∈ rowsOf exLayoutC7b, r2 ≤ r) →
          ([(0 : Int), 2] : List Int).length - 1 -
            List.indexOf r ([(0 : Int), 2] : List Int) = 0)) ∧
      (List.Sorted (fun a b => a ≤ b) ([(0 : Int), 2] : List Int) →
        ∀ c1 c2, c1 ∈ colsOf exLayoutC7b → c2 ∈ colsOf exLayoutC7b →
          c1 < c2 →
          List.indexOf c1 ([(0 : Int), 2] : List Int)
            < List.indexOf c2 ([(0 : Int), 2] : List Int))) :=
  ⟨by decide, expansion_matrix_spec exLayoutC7b [0, 2] [0, 2] (by decide)
    (by decide) (by decide) (by decide) (by decide)⟩

/-! ## Claim C3: the `to_dict` / `from_dict` round trip

Dictionary and graph primitive lemmas. -/

theorem Dict.hasKey_append (a b : Dict) (k : String) :
    Dict.hasKey (a ++ b) k = (Dict.hasKey a k || Dict.hasKey b k) := by
  induction a with
  | nil => rfl
  | cons p rest ih =>
    simp only [List.cons_append, Dict.hasKey, Bool.or_assoc]
    exact congrArg (fun x => (decide (p.1 = k) || x)) ih

theorem Dict.insert_of_hasKey_false (d : Dict) (k : String) (v : PyVal)
    (h : Dict.hasKey d k = false) :
    Dict.insert d k v = d ++ [(k, v)] := by
  unfold Dict.insert
  rw [h]
  rfl

theorem Dict.lookup?_append_right (a b : Dict) (k : String)
    (h : Dict.hasKey a k = false) :
    Dict.lookup? (a ++ b) k = Dict.lookup? b k := by
  induction a with
  | nil => rfl
  | cons p rest ih =>
    simp only [Dict.hasKey, Bool.or_eq_false_iff] at h
    have hp : p.1 ≠ k := by
      intro hc
      rw [decide_eq_false_iff_not] at h
      · exact h.1 hc
    simp only [List.cons_append, Dict.lookup?, if_neg hp]
    exact ih h.2

theorem Dict.erase_append_right (a b : Dict) (k : String)
    (h : Dict.hasKey a k = false) :
    Dict.erase (a ++ b) k = a ++ Dict.erase b k := by
  induction a with
  | nil => rfl
  | cons p rest ih =>
    simp only [Dict.hasKey, Bool.or_eq_false_iff] at h
    have hp : p.1 ≠ k := by
      intro hc
      rw [decide_eq_false_iff_not] at h
      · exact h.1 hc
    simp only [List.cons_append, Dict.erase, if_neg hp]
    exact congrArg (fun x => p :: x) (ih h.2)

theorem Dict.foldl_insert_of_fresh (l : Dict) :
    ∀ acc : Dict,
    (∀ k ∈ l.map Prod.fst, Dict.hasKey acc k = false) →
    (l.map Prod.fst).Nodup →
    l.foldl (fun acc p => Dict.insert acc p.1 p.2) acc = acc ++ l := by
  induction l with
  | nil => intro acc _ _; simp
  | cons p rest ih =>
    intro acc hdisj hnodup
    simp only [List.map_cons, List.nodup_cons] at hnodup
    have hp : Dict.hasKey acc p.1 = false := hdisj p.1 (by simp)
    simp only [List.foldl_cons, Dict.insert_of_hasKey_false acc p.1 p.2 hp]
    have hstep := ih (acc ++ [(p.1, p.2)]) ?_ hnodup.2
    · rw [hstep]
      simp
    · intro k hk
      rw [Dict.hasKey_append]
      have h1 : Dict.hasKey acc k = false :=
        hdisj k (List.mem_cons_of_mem _ hk)
      have h2 : Dict.hasKey [(p.1, p.2)] k = false := by
        simp only [Dict.hasKey, Bool.or_false]
        rw [decide_eq_false_iff_not]
        intro hc
        rw [hc] at hnodup
        exact hnodup.1 hk
      rw [h1, h2]
      rfl

theorem Dict.update_nil_left (attrs : Dict)
    (h : (attrs.map Prod.fst).Nodup) :
    Dict.update [] attrs = attrs := by
  unfold Dict.update
  rw [Dict.foldl_insert_of_fresh attrs [] (fun k _ => rfl) h]
  rfl

theorem DiGraph.hasNode_iff (g : DiGraph) (q : PyVal) :
    g.hasNode q = true ↔ q ∈ g.labels := by
  unfold DiGraph.hasNode DiGraph.labels
  rw [List.any_eq_true]
  constructor
  · intro hx
    obtain ⟨p, hp, he⟩ := hx
    rw [decide_eq_true_eq] at he
    exact he ▸ List.mem_map_of_mem _ hp
  · intro hq
    obtain ⟨p, hp, he⟩ := List.mem_map.mp hq
    exact ⟨p, hp, by rw [decide_eq_true_eq]; exact he⟩

/-- `find?` by key on a list of pairs, after an update that only rewrites the
values stored under key `q`, is unchanged for any other key. -/
theorem findKey_map_update (nodes : List (PyVal × Dict)) (q x : PyVal)
    (f : PyVal × Dict → Dict) (hne : x ≠ q) :
    (nodes.map (fun p => if p.1 = q then (p.1, f p) else p)).find?
        (fun p => decide (p.1 = x))
      = nodes.find? (fun p => decide (p.1 = x)) := by
  induction nodes with
  | nil => rfl
  | cons p rest ih =>
    by_cases hpq : p.1 = q
    · have hpx : ¬ (p.1 = x) := by
        intro hc
        exact hne (hc ▸ hpq)
      rw [List.map_cons, if_pos hpq]
      rw [List.find?_cons_of_neg, List.find?_cons_of_neg]
      · exact ih
      · simpa using hpx
      · simpa using hpx
    · rw [List.map_cons, if_neg hpq]
      by_cases hpx : p.1 = x
      · rw [List.find?_cons_of_pos, List.find?_cons_of_pos]
        · simpa using hpx
        · simpa using hpx
      · rw [List.find?_cons_of_neg, List.find?_cons_of_neg]
        · exact ih
        · simpa using hpx
        · simpa using hpx

/-- `find?` by key after the same update, at the updated key itself. -/
theorem findKey_map_update_self (nodes : List (PyVal × Dict)) (q : PyVal)
    (f : PyVal × Dict → Dict) (p0 : PyVal × Dict)
    (h : nodes.find? (fun p => decide (p.1 = q)) = some p0) :
    (nodes.map (fun p => if p.1 = q then (p.1, f p) else p)).find?
        (fun p => decide (p.1 = q))
      = some (p0.1, f p0) := by
  induction nodes with
  | nil => cases h
  | cons p rest ih =>
    by_cases hpq : p.1 = q
    · rw [List.find?_cons_of_pos _ (by simpa using hpq)] at h
      obtain rfl : p = p0 := Option.some.inj h
      rw [List.map_cons, if_pos hpq]
      rw [List.find?_cons_of_pos _ (by simpa using hpq)]
    · rw [List.find?_cons_of_neg _ (by simpa using hpq)] at h
      rw [List.map_cons, if_neg hpq]
      rw [List.find?_cons_of_neg _ (by simpa using hpq)]
      exact ih h

/-- `find?` by key over an append whose left part does not hold the key. -/
theorem findKey_append_right (a b : List (PyVal × Dict)) (q : PyVal)
    (h : q ∉ a.map Prod.fst) :
    (a ++ b).find? (fun p => decide (p.1 = q))
      = b.find? (fun p => decide (p.1 = q)) := by
  induction a with
  | nil => rfl
  | cons p rest ih =>
    simp only [List.map_cons, List.mem_cons] at h
    push_neg at h
    rw [List.cons_append, List.find?_cons_of_neg _
      (by simp only [decide_eq_true_eq]; intro hc; exact h.1 hc.symm)]
    exact ih h.2

/-- `find?` by key hits inside the left part of an append when the key is
there. -/
theorem findKey_append_left (a b : List (PyVal × Dict)) (q : PyVal)
    (h : q ∈ a.map Prod.fst) :
    (a ++ b).find? (fun p => decide (p.1 = q))
      = a.find? (fun p => decide (p.1 = q)) := by
  induction a with
  | nil => cases h
  | cons p rest ih =>
    by_cases hpq : p.1 = q
    · rw [List.cons_append, List.find?_cons_of_pos _ (by simpa using hpq),
        List.find?_cons_of_pos _ (by simpa using hpq)]
    · have h2 : q ∈ rest.map Prod.fst := by
        simp only [List.map_cons, List.mem_cons] at h
        rcases h with h | h
        · exact absurd h.symm hpq
        · exact h
      rw [List.cons_append, List.find?_cons_of_neg _ (by simpa using hpq),
        List.find?_cons_of_neg _ (by simpa using hpq)]
      exact ih h2

/-- Keys present in the list make the key-`find?` succeed. -/
theorem findKey_isSome (nodes : List (PyVal × Dict)) (q : PyVal) :
    (nodes.find? (fun p => decide (p.1 = q))).isSome = true
      ↔ q ∈ nodes.map Prod.fst := by
  induction nodes with
  | nil => simp
  | cons p rest ih =>
    by_cases hpq : p.1 = q
    · rw [List.find?_cons_of_pos _ (by simpa using hpq)]
      simp [hpq]
    · rw [List.find?_cons_of_neg _ (by simpa using hpq)]
      simp only [List.map_cons, List.mem_cons, ih]
      constructor
      · intro h
        exact Or.inr h
      · intro h
        rcases h with h | h
        · exact absurd h.symm hpq
        · exact h

theorem findKey_none_of_not_mem (nodes : List (PyVal × Dict)) (q : PyVal)
    (h : q ∉ nodes.map Prod.fst) :
    nodes.find? (fun p => decide (p.1 = q)) = Option.none := by
  cases hf : nodes.find? (fun p => decide (p.1 = q)) with
  | none => rfl
  | some p0 =>
    exfalso
    apply h
    rw [← findKey_isSome]
    rw [hf]
    rfl

theorem DiGraph.hasEdge_iff (g : DiGraph) (u v : PyVal) :
    g.hasEdge u v = true ↔ ∃ e ∈ g.edges, e.1 = u ∧ e.2.1 = v := by
  unfold DiGraph.hasEdge
  rw [List.any_eq_true]
  simp

theorem DiGraph.labels_addNode (g : DiGraph) (q : PyVal) (a : Dict) :
    (g.addNode q a).labels =
      if g.hasNode q then g.labels else g.labels ++ [q] := by
  unfold DiGraph.addNode
  by_cases h : g.hasNode q
  · rw [if_pos h, if_pos h]
    show (g.nodes.map _).map Prod.fst = _
    rw [List.map_map]
    apply List.map_congr_left
    intro p _
    by_cases hp : p.1 = q
    · simp [hp]
    · simp [hp]
  · rw [if_neg h, if_neg h]
    show (g.nodes ++ [(q, a)]).map Prod.fst = _
    simp [DiGraph.labels]

theorem DiGraph.addNode_edges (g : DiGraph) (q : PyVal) (a : Dict) :
    (g.addNode q a).edges = g.edges := by
  unfold DiGraph.addNode
  split <;> rfl

theorem DiGraph.addNode_gattrs (g : DiGraph) (q : PyVal) (a : Dict) :
    (g.addNode q a).gattrs = g.gattrs := by
  unfold DiGraph.addNode
  split <;> rfl

theorem DiGraph.addNode_attrs_fresh (g : DiGraph) (q : PyVal) (a : Dict)
    (h : q ∉ g.labels) :
    (g.addNode q a).nodeAttrs? q = some a := by
  unfold DiGraph.addNode
  rw [if_neg (fun hc => h ((DiGraph.hasNode_iff g q).mp hc))]
  show ((g.nodes ++ [(q, a)]).find? _).map _ = _
  rw [findKey_append_right _ _ _ h]
  simp [List.find?]

theorem DiGraph.addNode_attrs_existing (g : DiGraph) (q : PyVal) (a : Dict)
    (old : Dict) (hold : g.nodeAttrs? q = some old) :
    (g.addNode q a).nodeAttrs? q = some (Dict.update old a) := by
  have hfind : ∃ p0, g.nodes.find? (fun p => decide (p.1 = q)) = some p0
      ∧ p0.2 = old := by
    unfold DiGraph.nodeAttrs? at hold
    cases hf : g.nodes.find? (fun p => decide (p.1 = q)) with
    | none => rw [hf] at hold; cases hold
    | some p0 =>
      rw [hf] at hold
      exact ⟨p0, rfl, Option.some.inj hold⟩
  obtain ⟨p0, hf, hp0⟩ := hfind
  have hmem : q ∈ g.labels := by
    have := (findKey_isSome g.nodes q).mp (by rw [hf]; rfl)
    exact this
  unfold DiGraph.addNode
  rw [if_pos ((DiGraph.hasNode_iff g q).mpr hmem)]
  show ((g.nodes.map _).find? _).map _ = _
  rw [findKey_map_update_self g.nodes q (fun p => Dict.update p.2 a) p0 hf]
  rw [hp0]
  rfl

theorem DiGraph.addNode_attrs_ne (g : DiGraph) (q : PyVal) (a : Dict)
    (x : PyVal) (hne : x ≠ q) :
    (g.addNode q a).nodeAttrs? x = g.nodeAttrs? x := by
  unfold DiGraph.addNode
  by_cases h : g.hasNode q
  · rw [if_pos h]
    show ((g.nodes.map _).find? _).map _ = _
    rw [findKey_map_update g.nodes q x (fun p => Dict.update p.2 a) hne]
    rfl
  · rw [if_neg h]
    show ((g.nodes ++ [(q, a)]).find? _).map _ = _
    by_cases hx : x ∈ g.labels
    · rw [findKey_append_left _ _ _ hx]
      rfl
    · rw [findKey_append_right _ _ _ hx]
      show (([(q, a)].find? _).map _ : Option Dict) = _
      rw [List.find?_cons_of_neg _ (by simpa using fun hc => hne hc.symm)]
      unfold DiGraph.nodeAttrs?
      rw [findKey_none_of_not_mem _ _ hx]
      rfl

theorem DiGraph.labels_nodup_addNode (g : DiGraph) (q : PyVal) (a : Dict)
    (h : g.labels.Nodup) : (g.addNode q a).labels.Nodup := by
  rw [DiGraph.labels_addNode]
  by_cases hq : g.hasNode q
  · rw [if_pos hq]
    exact h
  · rw [if_neg hq]
    refine List.Nodup.append h (List.nodup_singleton q) ?_
    intro x hx hx2
    rw [List.mem_singleton] at hx2
    subst hx2
    exact hq ((DiGraph.hasNode_iff g x).mpr hx)

theorem DiGraph.ensureNode_edges (g : DiGraph) (q : PyVal) :
    (g.ensureNode q).edges = g.edges := by
  unfold DiGraph.ensureNode
  split <;> rfl

theorem DiGraph.ensureNode_gattrs (g : DiGraph) (q : PyVal) :
    (g.ensureNode q).gattrs = g.gattrs := by
  unfold DiGraph.ensureNode
  split <;> rfl

theorem DiGraph.mem_labels_ensureNode (g : DiGraph) (q x : PyVal) :
    x ∈ (g.ensureNode q).labels ↔ x ∈ g.labels ∨ x = q := by
  unfold DiGraph.ensureNode
  by_cases h : g.hasNode q
  · rw [if_pos h]
    constructor
    · exact Or.inl
    · intro hx
      rcases hx with hx | hx
      · exact hx
      · exact hx ▸ (DiGraph.hasNode_iff g q).mp h
  · rw [if_neg h]
    show x ∈ (g.nodes ++ [(q, [])]).map Prod.fst ↔ _
    simp [DiGraph.labels]

theorem DiGraph.nodeAttrs?_ensureNode_of_mem (g : DiGraph) (q x : PyVal)
    (hx : x ∈ g.labels) :
    (g.ensureNode q).nodeAttrs? x = g.nodeAttrs? x := by
  unfold DiGraph.ensureNode
  by_cases h : g.hasNode q
  · rw [if_pos h]
  · rw [if_neg h]
    show ((g.nodes ++ [(q, [])]).find? _).map _ = _
    rw [findKey_append_left _ _ _ hx]
    rfl

theorem DiGraph.nodeAttrs?_ensureNode_fresh (g : DiGraph) (q : PyVal)
    (hq : q ∉ g.labels) :
    (g.ensureNode q).nodeAttrs? q = some [] := by
  unfold DiGraph.ensureNode
  rw [if_neg (fun hc => hq ((DiGraph.hasNode_iff g q).mp hc))]
  show ((g.nodes ++ [(q, [])]).find? _).map _ = _
  rw [findKey_append_right _ _ _ hq]
  simp [List.find?]

theorem DiGraph.labels_nodup_ensureNode (g : DiGraph) (q : PyVal)
    (h : g.labels.Nodup) : (g.ensureNode q).labels.Nodup := by
  unfold DiGraph.ensureNode
  by_cases hq : g.hasNode q
  · rw [if_pos hq]
    exact h
  · rw [if_neg hq]
    show ((g.nodes ++ [(q, [])]).map Prod.fst).Nodup
    rw [List.map_append]
    refine List.Nodup.append h (by simp) ?_
    intro x hx hx2
    simp only [List.map_cons, List.map_nil, List.mem_singleton] at hx2
    subst hx2
    exact hq ((DiGraph.hasNode_iff g x).mpr hx)

theorem DiGraph.addEdge_labels_eq (g : DiGraph) (u v : PyVal) (d : String) :
    (g.addEdge u v d).labels = ((g.ensureNode u).ensureNode v).labels := by
  unfold DiGraph.addEdge
  dsimp only
  split <;> rfl

theorem DiGraph.addEdge_nodes_eq (g : DiGraph) (u v : PyVal) (d : String) :
    (g.addEdge u v d).nodes = ((g.ensureNode u).ensureNode v).nodes := by
  unfold DiGraph.addEdge
  dsimp only
  split <;> rfl

theorem DiGraph.addEdge_gattrs (g : DiGraph) (u v : PyVal) (d : String) :
    (g.addEdge u v d).gattrs = g.gattrs := by
  have h : (g.addEdge u v d).gattrs
      = ((g.ensureNode u).ensureNode v).gattrs := by
    unfold DiGraph.addEdge
    dsimp only
    split <;> rfl
  rw [h, DiGraph.ensureNode_gattrs, DiGraph.ensureNode_gattrs]

theorem DiGraph.addEdge_edges_of_not (g : DiGraph) (u v : PyVal) (d : String)
    (h : g.hasEdge u v = false) :
    (g.addEdge u v d).edges = g.edges ++ [(u, v, d)] := by
  unfold DiGraph.addEdge
  have h2 : ((g.ensureNode u).ensureNode v).hasEdge u v = false := by
    unfold DiGraph.hasEdge
    rw [DiGraph.ensureNode_edges, DiGraph.ensureNode_edges]
    exact h
  rw [if_neg (by rw [h2]; exact Bool.false_ne_true)]
  show ((g.ensureNode u).ensureNode v).edges ++ [(u, v, d)] = _
  rw [DiGraph.ensureNode_edges, DiGraph.ensureNode_edges]

theorem DiGraph.mem_labels_addEdge (g : DiGraph) (u v x : PyVal)
    (d : String) :
    x ∈ (g.addEdge u v d).labels ↔ x ∈ g.labels ∨ x = u ∨ x = v := by
  rw [DiGraph.addEdge_labels_eq, DiGraph.mem_labels_ensureNode,
    DiGraph.mem_labels_ensureNode, or_assoc]

theorem DiGraph.nodeAttrs?_addEdge_of_mem (g : DiGraph) (u v x : PyVal)
    (d : String) (hx : x ∈ g.labels) :
    (g.addEdge u v d).nodeAttrs? x = g.nodeAttrs? x := by
  have hn : (g.addEdge u v d).nodeAttrs? x
      = ((g.ensureNode u).ensureNode v).nodeAttrs? x := by
    unfold DiGraph.nodeAttrs?
    rw [DiGraph.addEdge_nodes_eq]
  rw [hn]
  have hx2 : x ∈ (g.ensureNode u).labels :=
    (DiGraph.mem_labels_ensureNode g u x).mpr (Or.inl hx)
  rw [DiGraph.nodeAttrs?_ensureNode_of_mem _ _ _ hx2,
    DiGraph.nodeAttrs?_ensureNode_of_mem _ _ _ hx]

theorem DiGraph.nodeAttrs?_addEdge_fresh (g : DiGraph) (u v : PyVal)
    (d : String) (hu : u ∈ g.labels) (hv : v ∉ g.labels) :
    (g.addEdge u v d).nodeAttrs? v = some [] := by
  have hn : (g.addEdge u v d).nodeAttrs? v
      = ((g.ensureNode u).ensureNode v).nodeAttrs? v := by
    unfold DiGraph.nodeAttrs?
    rw [DiGraph.addEdge_nodes_eq]
  rw [hn]
  have hens : (g.ensureNode u) = g := by
    unfold DiGraph.ensureNode
    rw [if_pos ((DiGraph.hasNode_iff g u).mpr hu)]
  rw [hens]
  exact DiGraph.nodeAttrs?_ensureNode_fresh g v hv

theorem DiGraph.labels_nodup_addEdge (g : DiGraph) (u v : PyVal) (d : String)
    (h : g.labels.Nodup) : (g.addEdge u v d).labels.Nodup := by
  have hl : (g.addEdge u v d).labels
      = ((g.ensureNode u).ensureNode v).labels := DiGraph.addEdge_labels_eq ..
  rw [hl]
  exact DiGraph.labels_nodup_ensureNode _ _
    (DiGraph.labels_nodup_ensureNode _ _ h)

theorem DiGraph.mem_labels_addNode (g : DiGraph) (q x : PyVal) (a : Dict) :
    x ∈ (g.addNode q a).labels ↔ x ∈ g.labels ∨ x = q := by
  rw [DiGraph.labels_addNode]
  by_cases h : g.hasNode q
  · rw [if_pos h]
    constructor
    · exact Or.inl
    · intro hx
      rcases hx with hx | hx
      · exact hx
      · exact hx ▸ (DiGraph.hasNode_iff g q).mp h
  · rw [if_neg h]
    simp

theorem DiGraph.hasEdge_false_of_no_source (g : DiGraph) (u v : PyVal)
    (h : ∀ e ∈ g.edges, e.1 ≠ u) : g.hasEdge u v = false := by
  rw [Bool.eq_false_iff]
  intro hc
  obtain ⟨e, he, h1, _⟩ := (DiGraph.hasEdge_iff g u v).mp hc
  exact h e he h1

/-- The accumulated effect of adding the out-edges of a single fresh source
`u` (targets pairwise distinct, no prior `u`-sourced edge): edges are
appended in order, target nodes are created with empty attributes when
missing, and everything else is untouched. -/
theorem addEdges_fold (u : PyVal) :
    ∀ (ev : List (PyVal × String)) (g : DiGraph),
    u ∈ g.labels →
    (ev.map Prod.fst).Nodup →
    (∀ vd ∈ ev, g.hasEdge u vd.1 = false) →
    g.labels.Nodup →
    (ev.foldl (fun g vd => g.addEdge u vd.1 vd.2) g).edges
        = g.edges ++ ev.map (fun vd => (u, vd.1, vd.2)) ∧
    (∀ x, x ∈ (ev.foldl (fun g vd => g.addEdge u vd.1 vd.2) g).labels ↔
        x ∈ g.labels ∨ ∃ vd ∈ ev, vd.1 = x) ∧
    (∀ x, x ∈ g.labels →
      (ev.foldl (fun g vd => g.addEdge u vd.1 vd.2) g).nodeAttrs? x
        = g.nodeAttrs? x) ∧
    (∀ x, x ∉ g.labels → (∃ vd ∈ ev, vd.1 = x) →
      (ev.foldl (fun g vd => g.addEdge u vd.1 vd.2) g).nodeAttrs? x
        = some []) ∧
    (ev.foldl (fun g vd => g.addEdge u vd.1 vd.2) g).gattrs = g.gattrs ∧
    (ev.foldl (fun g vd => g.addEdge u vd.1 vd.2) g).labels.Nodup := by
  intro ev
  induction ev with
  | nil =>
    intro g hu _ _ hnd
    refine ⟨by simp, by simp, fun x _ => rfl, ?_, rfl, hnd⟩
    intro x _ hx
    obtain ⟨vd, hvd, _⟩ := hx
    cases hvd
  | cons vd0 rest ih =>
    intro g hu hnodup hnoe hnd
    simp only [List.map_cons, List.nodup_cons] at hnodup
    have hne0 : g.hasEdge u vd0.1 = false := hnoe vd0 (List.mem_cons_self _ _)
    -- facts about the single step
    have hedges1 : (g.addEdge u vd0.1 vd0.2).edges
        = g.edges ++ [(u, vd0.1, vd0.2)] :=
      DiGraph.addEdge_edges_of_not g u vd0.1 vd0.2 hne0
    have hmem1 : ∀ x, x ∈ (g.addEdge u vd0.1 vd0.2).labels ↔
        x ∈ g.labels ∨ x = vd0.1 := by
      intro x
      rw [DiGraph.mem_labels_addEdge]
      constructor
      · intro hx
        rcases hx with hx | hx | hx
        · exact Or.inl hx
        · exact Or.inl (hx ▸ hu)
        · exact Or.inr hx
      · intro hx
        rcases hx with hx | hx
        · exact Or.inl hx
        · exact Or.inr (Or.inr hx)
    have hu1 : u ∈ (g.addEdge u vd0.1 vd0.2).labels :=
      (hmem1 u).mpr (Or.inl hu)
    have hnd1 : (g.addEdge u vd0.1 vd0.2).labels.Nodup :=
      DiGraph.labels_nodup_addEdge g u vd0.1 vd0.2 hnd
    have hnoe1 : ∀ vd ∈ rest, (g.addEdge u vd0.1 vd0.2).hasEdge u vd.1
        = false := by
      intro vd hvd
      rw [Bool.eq_false_iff]
      intro hc
      obtain ⟨e, he, he1, he2⟩ :=
        (DiGraph.hasEdge_iff _ u vd.1).mp hc
      rw [hedges1] at he
      rcases List.mem_append.mp he with he | he
      · have : g.hasEdge u vd.1 = true :=
          (DiGraph.hasEdge_iff g u vd.1).mpr ⟨e, he, he1, he2⟩
        rw [hnoe vd (List.mem_cons_of_mem _ hvd)] at this
        cases this
      · rw [List.mem_singleton] at he
        subst he
        apply hnodup.1
        have : vd0.1 = vd.1 := he2
        exact this ▸ List.mem_map_of_mem Prod.fst hvd
    obtain ⟨ihe, ihm, ihp, ihf, ihg, ihn⟩ :=
      ih (g.addEdge u vd0.1 vd0.2) hu1 hnodup.2 hnoe1 hnd1
    refine ⟨?_, ?_, ?_, ?_, ?_, ?_⟩
    · rw [List.foldl_cons, ihe, hedges1, List.map_cons]
      simp
    · intro x
      rw [List.foldl_cons, ihm x, hmem1 x]
      constructor
      · intro hx
        rcases hx with (hx | hx) | hx
        · exact Or.inl hx
        · exact Or.inr ⟨vd0, List.mem_cons_self _ _, hx.symm⟩
        · obtain ⟨vd, hvd, hvx⟩ := hx
          exact Or.inr ⟨vd, List.mem_cons_of_mem _ hvd, hvx⟩
      · intro hx
        rcases hx with hx | hx
        · exact Or.inl (Or.inl hx)
        · obtain ⟨vd, hvd, hvx⟩ := hx
          rcases List.mem_cons.mp hvd with hvd | hvd
          · exact Or.inl (Or.inr (by rw [← hvx, hvd]))
          · exact Or.inr ⟨vd, hvd, hvx⟩
    · intro x hx
      rw [List.foldl_cons, ihp x ((hmem1 x).mpr (Or.inl hx)),
        DiGraph.nodeAttrs?_addEdge_of_mem g u vd0.1 x vd0.2 hx]
    · intro x hx htgt
      rw [List.foldl_cons]
      obtain ⟨vd, hvd, hvx⟩ := htgt
      rcases List.mem_cons.mp hvd with hvd | hvd
      · subst hvd
        subst hvx
        have hfresh : (g.addEdge u vd.1 vd.2).nodeAttrs? vd.1 = some [] :=
          DiGraph.nodeAttrs?_addEdge_fresh g u vd.1 vd.2 hu hx
        rw [ihp vd.1 ((hmem1 vd.1).mpr (Or.inr rfl))]
        exact hfresh
      · by_cases hx1 : x ∈ (g.addEdge u vd0.1 vd0.2).labels
        · have hx2 : x = vd0.1 := by
            rcases (hmem1 x).mp hx1 with h | h
            · exact absurd h hx
            · exact h
          have hfresh : (g.addEdge u vd0.1 vd0.2).nodeAttrs? vd0.1
              = some [] :=
            DiGraph.nodeAttrs?_addEdge_fresh g u vd0.1 vd0.2 hu (hx2 ▸ hx)
          rw [ihp x hx1, hx2]
          exact hfresh
        · exact ihf x hx1 ⟨vd, hvd, hvx⟩
    · rw [List.foldl_cons, ihg, DiGraph.addEdge_gattrs]
    · rw [List.foldl_cons]
      exact ihn

/-- The serialized record `to_dict` emits for one node of graph `G`. -/
def mkRecord (G : DiGraph) (p : PyVal × Dict) : PyVal :=
  .dict (Dict.insert (Dict.insert p.2 "qubit" p.1) "neighbors"
    (.dict (neighborsDictOf G p.1)))

theorem to_dict_eq_mkRecords (L : Layout) :
    L.to_dict = [("layout", .list (L.graph.nodes.map (mkRecord L.graph)))] :=
  rfl

theorem fill_fold_decomp :
    ∀ (ds : List String) (acc : Dict), ∃ extra,
    ds.foldl (fun acc d =>
        if Dict.hasKey acc d then acc else acc ++ [(d, PyVal.none)]) acc
      = acc ++ extra ∧ ∀ e ∈ extra, e.2 = PyVal.none := by
  intro ds
  induction ds with
  | nil =>
    intro acc
    exact ⟨[], by simp, by simp⟩
  | cons d rest ih =>
    intro acc
    rw [List.foldl_cons]
    by_cases h : Dict.hasKey acc d
    · rw [if_pos h]
      exact ih acc
    · rw [if_neg h]
      obtain ⟨extra, hx, hnone⟩ := ih (acc ++ [(d, PyVal.none)])
      refine ⟨(d, PyVal.none) :: extra, ?_, ?_⟩
      · rw [hx]
        simp
      · intro e he
        rcases List.mem_cons.mp he with he | he
        · rw [he]
        · exact hnone e he

theorem foldl_insert_swap_of_fresh (l : List (PyVal × String)) :
    ∀ acc : Dict,
    (∀ k ∈ l.map Prod.snd, Dict.hasKey acc k = false) →
    (l.map Prod.snd).Nodup →
    l.foldl (fun acc p => Dict.insert acc p.2 p.1) acc
      = acc ++ l.map (fun vd => (vd.2, vd.1)) := by
  induction l with
  | nil => intro acc _ _; simp
  | cons p rest ih =>
    intro acc hdisj hnodup
    simp only [List.map_cons, List.nodup_cons] at hnodup
    have hp : Dict.hasKey acc p.2 = false := hdisj p.2 (by simp)
    simp only [List.foldl_cons, Dict.insert_of_hasKey_false acc p.2 p.1 hp]
    have hstep := ih (acc ++ [(p.2, p.1)]) ?_ hnodup.2
    · rw [hstep]
      simp
    · intro k hk
      rw [Dict.hasKey_append]
      have h1 : Dict.hasKey acc k = false :=
        hdisj k (List.mem_cons_of_mem _ hk)
      have h2 : Dict.hasKey [(p.2, p.1)] k = false := by
        simp only [Dict.hasKey, Bool.or_false]
        rw [decide_eq_false_iff_not]
        intro hc
        rw [hc] at hnodup
        exact hnodup.1 hk
      rw [h1, h2]
      rfl

theorem neighborsDictOf_decomp (G : DiGraph) (u : PyVal)
    (hdirs : ((G.outEdges u).map Prod.snd).Nodup) :
    ∃ extra, neighborsDictOf G u
      = (G.outEdges u).map (fun vd => (vd.2, vd.1)) ++ extra ∧
      ∀ e ∈ extra, e.2 = PyVal.none := by
  unfold neighborsDictOf
  rw [foldl_insert_swap_of_fresh (G.outEdges u) [] (fun k _ => rfl) hdirs]
  obtain ⟨extra, hx, hnone⟩ := fill_fold_decomp directions
    ([] ++ (G.outEdges u).map (fun vd => (vd.2, vd.1)))
  rw [hx]
  exact ⟨extra, by simp, hnone⟩

theorem foldl_skip_none (u : PyVal) :
    ∀ (B : Dict) (g : DiGraph), (∀ e ∈ B, e.2 = PyVal.none) →
    B.foldl (fun g pr =>
        if pr.2 = PyVal.none then g else g.addEdge u pr.2 pr.1) g = g := by
  intro B
  induction B with
  | nil => intro g _; rfl
  | cons e rest ih =>
    intro g h
    rw [List.foldl_cons, if_pos (h e (List.mem_cons_self _ _))]
    exact ih g (fun x hx => h x (List.mem_cons_of_mem _ hx))

theorem foldl_real_edges (u : PyVal) :
    ∀ (ev : List (PyVal × String)) (g : DiGraph),
    (∀ vd ∈ ev, vd.1 ≠ PyVal.none) →
    ((ev.map (fun vd => (vd.2, vd.1))).foldl (fun g pr =>
        if pr.2 = PyVal.none then g else g.addEdge u pr.2 pr.1) g)
      = ev.foldl (fun g vd => g.addEdge u vd.1 vd.2) g := by
  intro ev
  induction ev with
  | nil => intro g _; rfl
  | cons vd rest ih =>
    intro g h
    rw [List.map_cons, List.foldl_cons, List.foldl_cons]
    rw [if_neg (h vd (List.mem_cons_self _ _))]
    exact ih _ (fun x hx => h x (List.mem_cons_of_mem _ hx))

/-- Processing the serialized record of node `p` of `G`: the pops recover
the label and the neighbors dict and leave exactly the original attribute
dict, the node is added with those attributes, and one edge is added per
original out-edge of `p`, in order. -/
theorem loadRecord_mkRecord (G : DiGraph) (p : PyVal × Dict) (g : DiGraph)
    (hq : "qubit" ∉ p.2.map Prod.fst)
    (hn : "neighbors" ∉ p.2.map Prod.fst)
    (hdirs : ((G.outEdges p.1).map Prod.snd).Nodup)
    (htv : ∀ vd ∈ G.outEdges p.1, vd.1 ≠ PyVal.none) :
    loadRecord g (mkRecord G p) =
      .ok ((G.outEdges p.1).foldl
        (fun g vd => g.addEdge p.1 vd.1 vd.2) (g.addNode p.1 p.2),
        .dict p.2) := by
  have hkq : Dict.hasKey p.2 "qubit" = false := by
    rw [Bool.eq_false_iff]
    exact fun hc => hq ((Dict.hasKey_iff_mem _ _).mp hc)
  have hkn : Dict.hasKey p.2 "neighbors" = false := by
    rw [Bool.eq_false_iff]
    exact fun hc => hn ((Dict.hasKey_iff_mem _ _).mp hc)
  have e1 : Dict.insert p.2 "qubit" p.1 = p.2 ++ [("qubit", p.1)] :=
    Dict.insert_of_hasKey_false _ _ _ hkq
  have hkn2 : Dict.hasKey (p.2 ++ [("qubit", p.1)]) "neighbors" = false := by
    rw [Dict.hasKey_append, hkn]
    rfl
  have e2 : Dict.insert (p.2 ++ [("qubit", p.1)]) "neighbors"
      (.dict (neighborsDictOf G p.1))
      = p.2 ++ [("qubit", p.1),
          ("neighbors", .dict (neighborsDictOf G p.1))] := by
    rw [Dict.insert_of_hasKey_false _ _ _ hkn2]
    simp
  have hpop1 : Dict.pop? (p.2 ++ [("qubit", p.1),
      ("neighbors", .dict (neighborsDictOf G p.1))]) "qubit"
      = some (p.1, p.2 ++
          [("neighbors", .dict (neighborsDictOf G p.1))]) := by
    unfold Dict.pop?
    rw [Dict.lookup?_append_right _ _ _ hkq]
    rw [Dict.erase_append_right _ _ _ hkq]
    simp [Dict.lookup?, Dict.erase]
  have hpop2 : Dict.pop? (p.2 ++
      [("neighbors", .dict (neighborsDictOf G p.1))]) "neighbors"
      = some (.dict (neighborsDictOf G p.1), p.2) := by
    unfold Dict.pop?
    rw [Dict.lookup?_append_right _ _ _ hkn]
    rw [Dict.erase_append_right _ _ _ hkn]
    simp [Dict.lookup?, Dict.erase]
  unfold mkRecord
  rw [e1, e2]
  simp only [loadRecord, hpop1, hpop2]
  obtain ⟨extra, hx, hnone⟩ := neighborsDictOf_decomp G p.1 hdirs
  rw [hx]
  rw [List.foldl_append]
  rw [foldl_real_edges p.1 (G.outEdges p.1) _ htv]
  rw [foldl_skip_none p.1 extra _ hnone]

theorem mem_outEdges_imp (g : DiGraph) (u : PyVal) :
    ∀ vd ∈ g.outEdges u, (u, vd.1, vd.2) ∈ g.edges := by
  unfold DiGraph.outEdges
  intro vd hvd
  rw [List.mem_filterMap] at hvd
  obtain ⟨e, he, hfe⟩ := hvd
  by_cases h1 : e.1 = u
  · rw [if_pos h1] at hfe
    obtain rfl : e.2 = vd := Option.some.inj hfe
    subst h1
    simpa using he
  · rw [if_neg h1] at hfe
    cases hfe

theorem filterMap_src_pairs_sublist (u : PyVal) :
    ∀ es : List (PyVal × PyVal × String),
    List.Sublist (((es.filterMap (fun e =>
        if e.1 = u then some e.2 else Option.none)).map (fun vd => (u, vd.1))))
      (es.map (fun e => (e.1, e.2.1))) := by
  intro es
  induction es with
  | nil => simp
  | cons e rest ih =>
    by_cases h : e.1 = u
    · simp only [List.filterMap_cons, if_pos h, List.map_cons, h]
      exact List.Sublist.cons₂ _ ih
    · simp only [List.filterMap_cons, if_neg h, List.map_cons]
      exact List.Sublist.cons _ ih

theorem nodup_fst_of_const_pairs (u : PyVal) :
    ∀ l : List (PyVal × String),
    ((l.map (fun vd => (u, vd.1))).Nodup) → (l.map Prod.fst).Nodup := by
  intro l
  induction l with
  | nil => simp
  | cons vd rest ih =>
    intro h
    rw [List.map_cons, List.nodup_cons] at h ⊢
    refine ⟨?_, ih h.2⟩
    intro hc
    apply h.1
    rw [List.mem_map] at hc
    obtain ⟨x, hx, hxx⟩ := hc
    rw [List.mem_map]
    exact ⟨x, hx, by rw [hxx]⟩

theorem outEdges_targets_nodup (g : DiGraph)
    (H4 : (g.edges.map (fun e => (e.1, e.2.1))).Nodup) (u : PyVal) :
    ((g.outEdges u).map Prod.fst).Nodup :=
  nodup_fst_of_const_pairs u _
    (H4.sublist (filterMap_src_pairs_sublist u g.edges))

theorem flatMap_sources (G : DiGraph) (done : List (PyVal × Dict)) :
    ∀ e ∈ done.flatMap (fun p =>
      (G.outEdges p.1).map (fun vd => (p.1, vd.1, vd.2))),
    e.1 ∈ done.map Prod.fst := by
  intro e he
  rw [List.mem_flatMap] at he
  obtain ⟨p, hp, hep⟩ := he
  rw [List.mem_map] at hep
  obtain ⟨vd, _, hvde⟩ := hep
  rw [← hvde]
  exact List.mem_map_of_mem _ hp

/-- The invariant of the `load_layout` fold over the serialized records of
graph `G`, after the records of the nodes in `done` have been processed. -/
def loadInv (G : DiGraph) (done : List (PyVal × Dict)) (g : DiGraph) :
    Prop :=
  g.gattrs = [] ∧
  g.labels.Nodup ∧
  (∀ x, x ∈ g.labels ↔ x ∈ done.map Prod.fst ∨
    ∃ p ∈ done, ∃ vd ∈ G.outEdges p.1, vd.1 = x) ∧
  (∀ p ∈ done, g.nodeAttrs? p.1 = some p.2) ∧
  (∀ x, x ∈ g.labels → x ∉ done.map Prod.fst →
    g.nodeAttrs? x = some []) ∧
  g.edges = done.flatMap (fun p =>
    (G.outEdges p.1).map (fun vd => (p.1, vd.1, vd.2)))

theorem load_fold_master (G : DiGraph)
    (H1 : G.labels.Nodup)
    (H2 : ∀ p ∈ G.nodes, "qubit" ∉ p.2.map Prod.fst ∧
      "neighbors" ∉ p.2.map Prod.fst ∧ (p.2.map Prod.fst).Nodup)
    (H3 : ∀ e ∈ G.edges, e.1 ∈ G.labels ∧ e.2.1 ∈ G.labels)
    (H4 : (G.edges.map (fun e => (e.1, e.2.1))).Nodup)
    (H5 : ∀ u ∈ G.labels, ((G.outEdges u).map Prod.snd).Nodup)
    (H6 : PyVal.none ∉ G.labels) :
    ∀ (todo done : List (PyVal × Dict)), G.nodes = done ++ todo →
    ∀ g : DiGraph, loadInv G done g → ∀ acc : List PyVal,
    ∃ gfin, (todo.map (mkRecord G)).foldlM
        (fun acc2 r => do
          let (g2, rec2) ← loadRecord acc2.1 r
          Except.ok (g2, acc2.2 ++ [rec2])) (g, acc)
      = .ok (gfin, acc ++ todo.map (fun p => PyVal.dict p.2)) ∧
      loadInv G (done ++ todo) gfin := by
  intro todo
  induction todo with
  | nil =>
    intro done _ g hinv acc
    refine ⟨g, ?_, by simpa using hinv⟩
    simp [pure, Except.pure]
  | cons p todo' ih =>
    intro done hsplit g hinv acc
    obtain ⟨hg0, hnd, hmemiff, hattrs, hempty, hedges⟩ := hinv
    have hpG : p ∈ G.nodes := by
      rw [hsplit]
      exact List.mem_append.mpr (Or.inr (List.mem_cons_self _ _))
    have hpl : p.1 ∈ G.labels := List.mem_map_of_mem _ hpG
    obtain ⟨hq, hn, hak⟩ := H2 p hpG
    have hdirs := H5 p.1 hpl
    have htv : ∀ vd ∈ G.outEdges p.1, vd.1 ≠ PyVal.none := by
      intro vd hvd hc
      exact H6 (hc ▸ (H3 _ (mem_outEdges_imp G p.1 vd hvd)).2)
    have hrec := loadRecord_mkRecord G p g hq hn hdirs htv
    -- p's label has not been seen as a record yet
    have hpdone : p.1 ∉ done.map Prod.fst := by
      have hL : G.labels = done.map Prod.fst ++ (p :: todo').map Prod.fst := by
        unfold DiGraph.labels
        rw [hsplit, List.map_append]
      rw [hL] at H1
      have hdisj := (List.nodup_append.mp H1).2.2
      intro hc
      exact hdisj hc (List.mem_cons_self _ _)
    -- the node-addition step
    have hg1attrs : (g.addNode p.1 p.2).nodeAttrs? p.1 = some p.2 := by
      by_cases hmem : p.1 ∈ g.labels
      · have hold : g.nodeAttrs? p.1 = some [] := hempty p.1 hmem hpdone
        rw [DiGraph.addNode_attrs_existing g p.1 p.2 [] hold]
        rw [Dict.update_nil_left p.2 hak]
      · exact DiGraph.addNode_attrs_fresh g p.1 p.2 hmem
    have hg1nd : (g.addNode p.1 p.2).labels.Nodup :=
      DiGraph.labels_nodup_addNode g p.1 p.2 hnd
    have hg1mem : ∀ x, x ∈ (g.addNode p.1 p.2).labels ↔
        x ∈ g.labels ∨ x = p.1 := fun x => DiGraph.mem_labels_addNode g p.1 x p.2
    have hg1edges : (g.addNode p.1 p.2).edges = g.edges :=
      DiGraph.addNode_edges g p.1 p.2
    -- no edge out of p.1 exists yet
    have hnoe : ∀ vd ∈ G.outEdges p.1,
        (g.addNode p.1 p.2).hasEdge p.1 vd.1 = false := by
      intro vd _
      apply DiGraph.hasEdge_false_of_no_source
      intro e he hc
      rw [hg1edges, hedges] at he
      exact hpdone (hc ▸ flatMap_sources G done e he)
    obtain ⟨hE, hM, hP, hF, hG2, hN⟩ := addEdges_fold p.1 (G.outEdges p.1)
      (g.addNode p.1 p.2) ((hg1mem p.1).mpr (Or.inr rfl))
      (outEdges_targets_nodup G H4 p.1) hnoe hg1nd
    -- the new invariant
    have hinv2 : loadInv G (done ++ [p])
        ((G.outEdges p.1).foldl
          (fun g vd => g.addEdge p.1 vd.1 vd.2) (g.addNode p.1 p.2)) := by
      refine ⟨?_, hN, ?_, ?_, ?_, ?_⟩
      · rw [hG2, DiGraph.addNode_gattrs, hg0]
      · intro x
        rw [hM x, hg1mem x, hmemiff x]
        simp only [List.map_append, List.mem_append, List.map_cons,
          List.map_nil, List.mem_singleton]
        constructor
        · intro hx
          rcases hx with ((hx | hx) | hx) | hx
          · exact Or.inl (Or.inl hx)
          · obtain ⟨p2, hp2, hvd⟩ := hx
            exact Or.inr ⟨p2, Or.inl hp2, hvd⟩
          · exact Or.inl (Or.inr hx)
          · obtain ⟨vd, hvd, hvx⟩ := hx
            exact Or.inr ⟨p, Or.inr rfl, vd, hvd, hvx⟩
        · intro hx
          rcases hx with (hx | hx) | hx
          · exact Or.inl (Or.inl (Or.inl hx))
          · exact Or.inl (Or.inr hx)
          · obtain ⟨p2, hp2, hvd⟩ := hx
            rcases hp2 with hp2 | hp2
            · exact Or.inl (Or.inl (Or.inr ⟨p2, hp2, hvd⟩))
            · subst hp2
              exact Or.inr hvd
      · intro p2 hp2
        rcases List.mem_append.mp hp2 with hp2 | hp2
        · have hp2l : p2.1 ∈ g.labels :=
            (hmemiff p2.1).mpr (Or.inl (List.mem_map_of_mem _ hp2))
          have hp2ne : p2.1 ≠ p.1 := by
            intro hc
            exact hpdone (hc ▸ List.mem_map_of_mem _ hp2)
          rw [hP p2.1 ((hg1mem p2.1).mpr (Or.inl hp2l))]
          rw [DiGraph.addNode_attrs_ne g p.1 p.2 p2.1 hp2ne]
          exact hattrs p2 hp2
        · rw [List.mem_singleton] at hp2
          subst hp2
          rw [hP p2.1 ((hg1mem p2.1).mpr (Or.inr rfl))]
          exact hg1attrs
      · intro x hx hxkeys
        simp only [List.map_append, List.mem_append, List.map_cons,
          List.map_nil, List.mem_singleton] at hxkeys
        push_neg at hxkeys
        by_cases hx1 : x ∈ (g.addNode p.1 p.2).labels
        · have hxg : x ∈ g.labels := by
            rcases (hg1mem x).mp hx1 with h | h
            · exact h
            · exact absurd h hxkeys.2
          rw [hP x hx1, DiGraph.addNode_attrs_ne g p.1 p.2 x hxkeys.2]
          exact hempty x hxg hxkeys.1
        · have htgt : ∃ vd ∈ G.outEdges p.1, vd.1 = x := by
            rcases (hM x).mp hx with h | h
            · exact absurd h hx1
            · exact h
          exact hF x hx1 htgt
      · rw [hE, hg1edges, hedges, List.flatMap_append]
        simp
    -- recurse
    have hsplit2 : G.nodes = (done ++ [p]) ++ todo' := by
      rw [hsplit]
      simp
    obtain ⟨gfin, hfold, hinvfin⟩ := ih (done ++ [p]) hsplit2 _ hinv2
      (acc ++ [PyVal.dict p.2])
    refine ⟨gfin, ?_, ?_⟩
    · rw [List.map_cons, List.foldlM_cons]
      simp only [hrec, Bind.bind, Except.bind]
      simp only [Bind.bind, Except.bind] at hfold
      rw [hfold]
      simp
    · have : (done ++ [p]) ++ todo' = done ++ p :: todo' := by simp
      rw [← this]
      exact hinvfin

theorem hasKey_fill_mono :
    ∀ (ds : List String) (acc : Dict) (k : String),
    Dict.hasKey acc k = true →
    Dict.hasKey (ds.foldl (fun acc d =>
      if Dict.hasKey acc d then acc else acc ++ [(d, PyVal.none)]) acc) k
      = true := by
  intro ds
  induction ds with
  | nil => intro acc k h; exact h
  | cons d rest ih =>
    intro acc k h
    rw [List.foldl_cons]
    by_cases hd : Dict.hasKey acc d
    · rw [if_pos hd]
      exact ih acc k h
    · rw [if_neg hd]
      apply ih
      rw [Dict.hasKey_append, h]
      rfl

theorem hasKey_fill_self :
    ∀ (ds : List String) (acc : Dict) (d : String), d ∈ ds →
    Dict.hasKey (ds.foldl (fun acc d =>
      if Dict.hasKey acc d then acc else acc ++ [(d, PyVal.none)]) acc) d
      = true := by
  intro ds
  induction ds with
  | nil => intro acc d h; exact absurd h (List.not_mem_nil d)
  | cons d0 rest ih =>
    intro acc d h
    rw [List.foldl_cons]
    rcases List.mem_cons.mp h with h | h
    · subst h
      by_cases hd : Dict.hasKey acc d
      · rw [if_pos hd]
        exact hasKey_fill_mono rest acc d hd
      · rw [if_neg hd]
        apply hasKey_fill_mono
        rw [Dict.hasKey_append]
        simp [Dict.hasKey]
    · by_cases hd : Dict.hasKey acc d0
      · rw [if_pos hd]
        exact ih _ d h
      · rw [if_neg hd]
        exact ih _ d h

theorem Dict.lookup?_mem :
    ∀ (l : Dict) (k : String), Dict.hasKey l k = true →
    ∃ v, Dict.lookup? l k = some v ∧ (k, v) ∈ l := by
  intro l
  induction l with
  | nil => intro k h; cases h
  | cons e rest ih =>
    obtain ⟨k1, v1⟩ := e
    intro k h
    by_cases he : k1 = k
    · subst he
      exact ⟨v1, by simp [Dict.lookup?], List.mem_cons_self _ _⟩
    · have h2 : Dict.hasKey rest k = true := by
        simp only [Dict.hasKey, Bool.or_eq_true] at h
        rcases h with h | h
        · exact absurd (of_decide_eq_true h) he
        · exact h
      obtain ⟨v, hv, hm⟩ := ih k h2
      refine ⟨v, ?_, List.mem_cons_of_mem _ hm⟩
      simp only [Dict.lookup?, if_neg he]
      exact hv

theorem outEdges_map_eq_filter (u : PyVal) :
    ∀ es : List (PyVal × PyVal × String),
    (es.filterMap (fun e =>
        if e.1 = u then some e.2 else Option.none)).map
      (fun vd => (u, vd.1, vd.2))
      = es.filter (fun e => decide (e.1 = u)) := by
  intro es
  induction es with
  | nil => rfl
  | cons e rest ih =>
    by_cases h : e.1 = u
    · subst h
      simp [List.filterMap_cons, List.filter_cons, ih]
    · simp [List.filterMap_cons, List.filter_cons, h, ih]

theorem outEdges_map_eq_filter2 (G : DiGraph) (u : PyVal) :
    (G.outEdges u).map (fun vd => (u, vd.1, vd.2))
      = G.edges.filter (fun e => decide (e.1 = u)) :=
  outEdges_map_eq_filter u G.edges

theorem flatMap_congr_mem (l : List PyVal)
    (f g : PyVal → List (PyVal × PyVal × String))
    (h : ∀ a ∈ l, f a = g a) : l.flatMap f = l.flatMap g := by
  induction l with
  | nil => rfl
  | cons a rest ih =>
    rw [List.flatMap_cons, List.flatMap_cons, h a (List.mem_cons_self _ _),
      ih (fun x hx => h x (List.mem_cons_of_mem _ hx))]

theorem flatMap_fst (f : PyVal → List (PyVal × PyVal × String)) :
    ∀ l : List (PyVal × Dict),
    l.flatMap (fun p => f p.1) = (l.map Prod.fst).flatMap f := by
  intro l
  induction l with
  | nil => rfl
  | cons p rest ih =>
    rw [List.flatMap_cons, List.map_cons, List.flatMap_cons, ih]

theorem flatMap_filter_perm :
    ∀ (keys : List PyVal) (es : List (PyVal × PyVal × String)),
    keys.Nodup → (∀ e ∈ es, e.1 ∈ keys) →
    List.Perm
      (keys.flatMap (fun u => es.filter (fun e => decide (e.1 = u)))) es := by
  intro keys
  induction keys with
  | nil =>
    intro es _ hcov
    have hnil : es = [] := by
      cases es with
      | nil => rfl
      | cons e rest =>
        exact absurd (hcov e (List.mem_cons_self _ _)) (List.not_mem_nil _)
    subst hnil
    exact List.Perm.nil
  | cons u keys2 ih =>
    intro es hnd hcov
    rw [List.nodup_cons] at hnd
    rw [List.flatMap_cons]
    have hinner :
        keys2.flatMap (fun u2 => es.filter (fun e => decide (e.1 = u2)))
          = keys2.flatMap (fun u2 =>
              (es.filter (fun e => !decide (e.1 = u))).filter
                (fun e => decide (e.1 = u2))) := by
      apply flatMap_congr_mem
      intro u2 hu2
      rw [List.filter_filter]
      apply List.filter_congr
      intro e _
      have hne : u2 ≠ u := fun hc => hnd.1 (hc ▸ hu2)
      by_cases h : e.1 = u2
      · have hnu : ¬ (e.1 = u) := fun hc => hne (h.symm.trans hc)
        rw [decide_eq_true h, decide_eq_false hnu]
        rfl
      · rw [decide_eq_false h]
        rfl
    rw [hinner]
    have hcov2 : ∀ e ∈ es.filter (fun e => !decide (e.1 = u)),
        e.1 ∈ keys2 := by
      intro e he
      simp only [List.mem_filter] at he
      obtain ⟨he1, he2⟩ := he
      have hne : ¬ (e.1 = u) := by
        intro hc
        rw [decide_eq_true hc] at he2
        cases he2
      rcases List.mem_cons.mp (hcov e he1) with h | h
      · exact absurd h hne
      · exact h
    have hperm2 := ih (es.filter (fun e => !decide (e.1 = u))) hnd.2 hcov2
    exact List.Perm.trans (List.Perm.append_left _ hperm2)
      (List.filter_append_perm _ es)

/-- What survives the `to_dict` / `from_dict` round trip: the call succeeds
with an empty residual mapping, the qubit set, per-qubit attributes and the
neighbor relation (up to edge order) are reconstructed, the serialized
`neighbors` sub-dicts carry all four canonical direction keys with `None`
filling the absent ones — but the graph-level attributes come back empty. -/
def RoundTripOk (L : Layout) : Prop :=
  ∃ L2 recs, Layout.from_dict L.to_dict = .ok (L2, [], recs) ∧
    (∀ x, x ∈ L2.graph.labels ↔ x ∈ L.graph.labels) ∧
    (∀ p ∈ L.graph.nodes, L2.graph.nodeAttrs? p.1 = some p.2) ∧
    List.Perm L2.graph.edges L.graph.edges ∧
    L2.graph.gattrs = [] ∧
    (∀ p ∈ L.graph.nodes, ∀ d ∈ directions,
      Dict.hasKey (neighborsDictOf L.graph p.1) d = true ∧
      (d ∉ (L.graph.outEdges p.1).map Prod.snd →
        Dict.lookup? (neighborsDictOf L.graph p.1) d = some PyVal.none))

/-- C3 (corrected): for every well-formed `Layout`, `from_dict (to_dict L)`
succeeds and reconstructs the qubit set, the per-qubit attributes and the
neighbor relation, with all four canonical direction keys serialized
(`None` filling the absent ones); but the graph-level attributes are not
round-tripped — `to_dict` drops them, so the rebuilt layout always has
empty graph attributes. -/
theorem to_dict_from_dict_roundtrip (L : Layout)
    (H1 : L.graph.labels.Nodup)
    (H2 : ∀ p ∈ L.graph.nodes, "qubit" ∉ p.2.map Prod.fst ∧
      "neighbors" ∉ p.2.map Prod.fst ∧ (p.2.map Prod.fst).Nodup)
    (H3 : ∀ e ∈ L.graph.edges, e.1 ∈ L.graph.labels ∧
      e.2.1 ∈ L.graph.labels)
    (H4 : (L.graph.edges.map (fun e => (e.1, e.2.1))).Nodup)
    (H5 : ∀ u ∈ L.graph.labels,
      ((L.graph.outEdges u).map Prod.snd).Nodup)
    (H6 : PyVal.none ∉ L.graph.labels) :
    RoundTripOk L := by
  have hinv0 : loadInv L.graph [] DiGraph.empty := by
    refine ⟨rfl, List.nodup_nil, ?_, ?_, ?_, rfl⟩
    · intro x
      simp [DiGraph.empty, DiGraph.labels]
    · intro p hp
      exact absurd hp (List.not_mem_nil p)
    · intro x hx
      exact absurd hx (List.not_mem_nil x)
  obtain ⟨gfin, hfold, hinv⟩ := load_fold_master L.graph H1 H2 H3 H4 H5 H6
    L.graph.nodes [] rfl DiGraph.empty hinv0 []
  simp only [List.nil_append] at hfold hinv
  obtain ⟨hg0, hnd, hmem, hattrs, hempty, hedges⟩ := hinv
  have hload : load_layout (L.graph.nodes.map (mkRecord L.graph))
      = .ok (gfin, L.graph.nodes.map (fun p => PyVal.dict p.2)) := by
    unfold load_layout
    rw [hfold]
  have hgraph : (Layout.init gfin []).graph = gfin := rfl
  have hfd : Layout.from_dict L.to_dict
      = .ok (Layout.init gfin [], [],
          L.graph.nodes.map (fun p => PyVal.dict p.2)) := by
    rw [to_dict_eq_mkRecords]
    have hpop : Dict.pop? [("layout",
        PyVal.list (L.graph.nodes.map (mkRecord L.graph)))] "layout"
        = some (PyVal.list (L.graph.nodes.map (mkRecord L.graph)), []) := rfl
    simp only [Layout.from_dict, hpop, hload, Bind.bind, Except.bind]
  refine ⟨Layout.init gfin [], L.graph.nodes.map (fun p => PyVal.dict p.2),
    hfd, ?_, ?_, ?_, ?_, ?_⟩
  · intro x
    rw [hgraph, hmem x]
    constructor
    · intro hx
      rcases hx with hx | hx
      · exact hx
      · obtain ⟨p, hp, vd, hvd, hvx⟩ := hx
        exact hvx ▸ (H3 _ (mem_outEdges_imp L.graph p.1 vd hvd)).2
    · intro hx
      exact Or.inl hx
  · intro p hp
    rw [hgraph]
    exact hattrs p hp
  · rw [hgraph, hedges]
    rw [flatMap_fst (fun u =>
      (L.graph.outEdges u).map (fun vd => (u, vd.1, vd.2))) L.graph.nodes]
    simp only [outEdges_map_eq_filter2]
    exact flatMap_filter_perm L.graph.labels L.graph.edges H1
      (fun e he => (H3 e he).1)
  · rw [hgraph]
    exact hg0
  · intro p hp d hd
    constructor
    · exact hasKey_fill_self directions _ d hd
    · intro hnd2
      obtain ⟨extra, hdec, hnone⟩ :=
        neighborsDictOf_decomp L.graph p.1 (H5 p.1 (List.mem_map_of_mem _ hp))
      have hkreal : Dict.hasKey
          ((L.graph.outEdges p.1).map (fun vd => (vd.2, vd.1))) d = false := by
        rw [Bool.eq_false_iff]
        intro hc
        apply hnd2
        have := (Dict.hasKey_iff_mem _ _).mp hc
        rw [List.map_map] at this
        simpa using this
      have hktot : Dict.hasKey (neighborsDictOf L.graph p.1) d = true :=
        hasKey_fill_self directions _ d hd
      rw [hdec] at hktot
      rw [Dict.hasKey_append, hkreal] at hktot
      have hkextra : Dict.hasKey extra d = true := by simpa using hktot
      obtain ⟨v, hv, hmemv⟩ := Dict.lookup?_mem extra d hkextra
      rw [hdec, Dict.lookup?_append_right _ _ _ hkreal, hv]
      exact congrArg some (hnone (d, v) hmemv)

/-- A layout carrying a graph-level attribute, used to exhibit that the
round trip drops it. -/
def exLayoutC3 : Layout :=
  { graph :=
      { nodes := [(.str "q", [])]
        edges := []
        gattrs := [("name", .str "X")] }
    qubit_inds := [(.str "q", 0)] }

/-- C3 counterexample: `from_dict (to_dict L)` rebuilds a layout whose
graph-level attributes are empty, although `L` carries one — `to_dict`
never serializes `Layout.param` data, so the round trip is not the
identity on attributes. -/
theorem roundtrip_drops_graph_attrs :
    (Layout.from_dict exLayoutC3.to_dict).map
        (fun t => t.1.graph.gattrs) = Except.ok [] ∧
    exLayoutC3.graph.gattrs = [("name", PyVal.str "X")] :=
  ⟨rfl, rfl⟩

/-- A small concrete well-formed layout: two qubits joined by one
directed edge. -/
def exLayoutC3w : Layout :=
  { graph :=
      { nodes := [(.str "a", [("role", .str "data")]), (.str "b", [])]
        edges := [(.str "a", .str "b", "north_east")]
        gattrs := [] }
    qubit_inds := [(.str "a", 0), (.str "b", 1)] }

theorem to_dict_from_dict_roundtrip_witness : RoundTripOk exLayoutC3w :=
  to_dict_from_dict_roundtrip exLayoutC3w (by decide) (by decide)
    (by decide) (by decide) (by decide) (by decide)

end QecUtil
